import Mathlib

/-!
SMP: the secure matrix product driver (`SMP_local.cpp`) and `trim` (`literal.cpp`).

A shallow embedding of the index arithmetic, the tile loops and the error paths of the
client/server driver, over an abstract homomorphic-encryption provider.
-/

namespace SMP

/-! ## Machine integers -/

/-- Two's-complement reduction of a mathematical integer into the range of a signed 64-bit
`long`. -/
def wrapLong (z : Int) : Int := (z + 2 ^ 63) % 2 ^ 64 - 2 ^ 63

/-- Two's-complement reduction of a mathematical integer into the range of a 32-bit `int`. -/
def wrapInt (z : Int) : Int := (z + 2 ^ 31) % 2 ^ 32 - 2 ^ 31

/-- The source's `round_div(a, b) = (a + b - 1) / b` on `long`: the sum is reduced to 64 bits
and the division truncates toward zero. -/
def round_div (a b : Int) : Int := Int.tdiv (wrapLong (a + b - 1)) b

/-! ## Errors and loops -/

/-- The ways the driver can stop abnormally, named after the source construct that raises them.
The `index_*` constructors stand for an index outside its container where the source uses
`operator[]`: undefined behaviour, or a range error in a range-checked build of NTL. -/
inductive Err where
  | assert_MAX_Y        -- `assert(MAX_Y1 == MAX_Y2)`
  | assert_B_blk_idx    -- `assert(B_blk_idx <= plain_B_blk.NumRows())`
  | assert_size         -- `assert(inner_prod.size() == l)`
  | at_enc_A_blks       -- `std::out_of_range` from `enc_A_blks.at(A_blk_idx).at(prtn)`
  | at_polys            -- `std::out_of_range` from `polys.at(offset)`
  | index_plain_B_blk   -- `plain_B_blk[B_blk_idx][prtn]` outside the table
  | index_inner_prod    -- `inner_prod[ll]` outside the vector
  | index_mat           -- `mat.put(i, j, a)` outside the matrix
  deriving DecidableEq, Repr

/-- Control state of a running `for` loop. -/
inductive Ctl where
  | go                  -- keep iterating
  | stop                -- left through `break`
  | fail (e : Err)      -- left through an exception or a failed assertion
  deriving DecidableEq, Repr

/-- The loop `for (x : xs) body`, where the body may `break` or fail; once the loop has been
left the remaining elements are skipped and the state is kept as it was. -/
def forEach {α σ : Type} (xs : List α) (body : α → σ → σ × Ctl) (s : σ) : σ × Ctl :=
  xs.foldl
    (fun acc x => match acc.2 with
      | Ctl.go => body x acc.1
      | _ => acc)
    (s, Ctl.go)

/-- The loop `for (i = 0; i < n; i++) body`, where the body may `break` or fail. -/
def forLoop {σ : Type} (n : Nat) (body : Nat → σ → σ × Ctl) (s : σ) : σ × Ctl :=
  forEach (List.range n) body s

/-- The loop `for (i = 0; i < n; i++) body` for a body that always completes. -/
def forRange {σ : Type} (n : Nat) (body : Nat → σ → σ) (s : σ) : σ :=
  (List.range n).foldl (fun acc i => body i acc) s

/-! ## Matrices -/

/-- A dense matrix of `long` entries (`NTL::Mat<long>`): its dimensions and its entries; only
the entries inside `[0, NumRows) × [0, NumCols)` are storage. -/
structure Matrix where
  NumRows : Nat
  NumCols : Nat
  entry : Nat → Nat → Int

/-- The source's `Matrix::SetDims(n, m)` on a fresh matrix. Every entry is overwritten (by
`randomize` or `zero`) before the driver reads it. -/
def Matrix.SetDims (n m : Nat) : Matrix := ⟨n, m, fun _ _ => 0⟩

/-- The assignment `mat[i][j] = a` for an index pair inside the matrix. -/
def Matrix.set (mat : Matrix) (i j : Nat) (a : Int) : Matrix :=
  { mat with entry := fun r c => if r = i ∧ c = j then a else mat.entry r c }

/-- The source's `mat.put(i, j, a)`, that is `mat[i][j] = a`: a write outside the storage (a
range error or undefined behaviour in NTL, depending on the build) is the error `index_mat`. -/
def Matrix.put (mat : Matrix) (i j : Nat) (a : Int) : Except Err Matrix :=
  if i < mat.NumRows ∧ j < mat.NumCols then .ok (mat.set i j a) else .error Err.index_mat

/-- The source's `zero(mat)`. -/
def zero (mat : Matrix) : Matrix :=
  forRange mat.NumRows (fun i m => forRange mat.NumCols (fun j m => m.set i j 0) m) mat

/-- Modelled from the spec: `transpose` of `SMP/Matrix.hpp`, which is not among the sources;
the transposed matrix has the dimensions swapped and entry `(r, c)` equal to entry `(c, r)`. -/
def transpose (B : Matrix) : Matrix := ⟨B.NumCols, B.NumRows, fun r c => B.entry c r⟩

/-- Modelled from the spec: `mul` of `SMP/Matrix.hpp`, the plaintext reference product. -/
def mul (A B : Matrix) : Matrix :=
  ⟨A.NumRows, B.NumCols,
    fun r c => forRange A.NumCols (fun j acc => acc + A.entry r j * B.entry j c) 0⟩

/-- Modelled from the spec: `is_same` of `SMP/Matrix.hpp`, equality of two matrices under the
modulus `p`. -/
def is_same (M N : Matrix) (p : Int) : Bool :=
  M.NumRows == N.NumRows && M.NumCols == N.NumCols &&
    (List.range M.NumRows).all fun r =>
      (List.range M.NumCols).all fun c => (M.entry r c - N.entry r c) % p == 0

/-! ## The pseudo-random generator -/

/-- NTL's pseudo-random stream as explicit state: `SetSeed` replaces the state by one that
depends on the seed only, `RandomBnd` draws a number below the bound and advances the state. -/
structure RandomStream (G : Type) where
  SetSeed : Int → G
  RandomBnd : G → Int → Int × G

/-- The source's `randomize(mat, p)`: every entry is drawn with `RandomBnd(4)`, row by row;
`p` is unused. -/
def randomize {G : Type} (R : RandomStream G) (mat : Matrix) (_p : Int) (g : G) : Matrix × G :=
  forRange mat.NumRows
    (fun i s => forRange mat.NumCols
      (fun j s => let r := R.RandomBnd s.2 4; (s.1.set i j r.1, r.2)) s)
    (mat, g)

/-! ## `fill_compute` -/

/-- One pass of the lane loop of `fill_compute` (lines 47-56). -/
def fill_step (is_vec : Bool) (row_start col : Nat) (inner_prod : List Int) (ll : Nat)
    (mat : Matrix) : Matrix × Ctl :=
  match inner_prod[ll]? with
  | none => (mat, Ctl.fail Err.index_inner_prod)
  | some computed =>
    let row := row_start + ll
    if row < mat.NumRows then
      match (if is_vec then mat.put col row computed else mat.put row col computed) with
      | .ok mat' => (mat', Ctl.go)
      | .error e => (mat, Ctl.fail e)
    else (mat, Ctl.stop)

/-- The source's `fill_compute(mat, row_blk, col, inner_prod, ea)` with `l = ea->size()`. The
tile index and the column are non-negative `long`s at the call site. -/
def fill_compute (mat : Matrix) (row_blk col : Nat) (inner_prod : List Int) (l : Nat) :
    Except Err Matrix :=
  let is_vec := decide (mat.NumRows = 1)
  if inner_prod.length ≠ l then .error Err.assert_size
  else
    let row_start := row_blk * l
    match forLoop l (fill_step is_vec row_start col inner_prod) mat with
    | (_, Ctl.fail e) => .error e
    | (mat', _) => .ok mat'

/-! ## The provider -/

/-- The operations the driver takes from HElib, NTL and `SMP/DoublePacking.hpp`, none of which
is among the sources. `G` is the generator state, `Ctxt` the ciphertexts, `ZZX` the plaintext
polynomials, `PX` the polynomials modulo `p` held by a packed block. The slot count `l` and the
degree `d` are sizes; the driver divides by them, and every statement below takes them to be
at least 1. -/
structure Provider (G Ctxt ZZX PX : Type) where
  l : Nat                                          -- `ea->size()`
  d : Nat                                          -- `ea->getDegree()`
  p : Int                                          -- the plaintext modulus
  empty : Ctxt                                     -- `Ctxt(key)`, the empty ciphertext
  multByConstant : Ctxt → ZZX → Ctxt
  add : Ctxt → Ctxt → Ctxt                         -- `+=`
  modDownToLevel : Ctxt → Nat → Ctxt
  conv : PX → ZZX                                  -- `NTL::conv`
  packed_polys : Matrix → Nat × Nat → Bool → List PX  -- `internal::partition(..).polys`
  rawEncode : List PX → ZZX
  Encrypt : G → ZZX → Ctxt × G                     -- `sk.Encrypt`
  faster_decrypt : Ctxt → List Int
  extract_inner_products : List Int → List Int     -- with the precomputed tables

/-! ## `play_server` -/

/-- The source's `enc_A_blks.at(A_blk_idx).at(prtn)`. -/
def tile_at {Ctxt : Type} (enc_A_blks : List (List Ctxt)) (A_blk_idx prtn : Nat) : Option Ctxt :=
  match enc_A_blks[A_blk_idx]? with
  | none => none
  | some row => row[prtn]?

/-- The source's `plain_B_blk[B_blk_idx][prtn]`. -/
def block_at {PX : Type} (plain_B_blk : List (List (List PX))) (B_blk_idx prtn : Nat) :
    Option (List PX) :=
  match plain_B_blk[B_blk_idx]? with
  | none => none
  | some row => row[prtn]?

/-- One pass of the `prtn` loop of `play_server` (lines 118-122). -/
def server_step {G Ctxt ZZX PX : Type} (P : Provider G Ctxt ZZX PX)
    (enc_A_blks : List (List Ctxt)) (plain_B_blk : List (List (List PX)))
    (A_blk_idx B_blk_idx offset prtn : Nat) (summation : Ctxt) : Ctxt × Ctl :=
  match tile_at enc_A_blks A_blk_idx prtn with
  | none => (summation, Ctl.fail Err.at_enc_A_blks)
  | some enc_blk =>
    match block_at plain_B_blk B_blk_idx prtn with
    | none => (summation, Ctl.fail Err.index_plain_B_blk)
    | some polys =>
      match polys[offset]? with
      | none => (summation, Ctl.fail Err.at_polys)
      | some poly =>
        let plain_blk := P.conv poly
        let enc_blk := P.multByConstant enc_blk plain_blk
        (P.add summation enc_blk, Ctl.go)

/-- The body of the `col_B` loop of `play_server` up to, not including, the `push_back`
(lines 113-124): the ciphertext for row tile `A_blk_idx` and output column `col_B`. -/
def server_cell {G Ctxt ZZX PX : Type} (P : Provider G Ctxt ZZX PX)
    (enc_A_blks : List (List Ctxt)) (plain_B_blk : List (List (List PX)))
    (MAX_Y1 : Int) (A_blk_idx col_B : Nat) : Except Err Ctxt :=
  let B_blk_idx := col_B / P.l
  let offset := col_B % P.l
  if ¬ (B_blk_idx ≤ plain_B_blk.length) then .error Err.assert_B_blk_idx
  else
    match forLoop MAX_Y1.toNat
        (server_step P enc_A_blks plain_B_blk A_blk_idx B_blk_idx offset) P.empty with
    | (_, Ctl.fail e) => .error e
    | (summation, _) => .ok (P.modDownToLevel summation 1)

/-- The table `plain_B_blk` of `play_server` (lines 98-105). -/
def server_table {G Ctxt ZZX PX : Type} (P : Provider G Ctxt ZZX PX) (Bt : Matrix)
    (MAX_X2 MAX_Y2 : Int) : List (List (List PX)) :=
  (List.range MAX_X2.toNat).map fun y =>
    (List.range MAX_Y2.toNat).map fun k => P.packed_polys Bt (y, k) true

/-- The body of the `col_B` loop of `play_server` (lines 113-125): the ciphertext of the cell is
appended to `results`. -/
def server_col_step {G Ctxt ZZX PX : Type} (P : Provider G Ctxt ZZX PX)
    (enc_A_blks : List (List Ctxt)) (plain_B_blk : List (List (List PX)))
    (MAX_Y1 : Int) (A_blk_idx col_B : Nat) (results : List Ctxt) : List Ctxt × Ctl :=
  match server_cell P enc_A_blks plain_B_blk MAX_Y1 A_blk_idx col_B with
  | .ok summation => (results ++ [summation], Ctl.go)
  | .error e => (results, Ctl.fail e)

/-- The source's `play_server(results, n1, B, enc_A_blks, ek, context)`: the list `results`
after the call and the error the call ended with, if any. The re-seeding of the generator at
line 86 is left out: `play_server` draws no random number. -/
def play_server {G Ctxt ZZX PX : Type} (P : Provider G Ctxt ZZX PX) (results : List Ctxt)
    (n1 : Int) (B : Matrix) (enc_A_blks : List (List Ctxt)) : List Ctxt × Option Err :=
  let MAX_X1 := round_div n1 P.l
  let MAX_Y1 := round_div B.NumRows P.d
  let Bt := transpose B
  let MAX_X2 := round_div Bt.NumRows P.l
  let MAX_Y2 := round_div Bt.NumCols P.d
  if MAX_Y1 ≠ MAX_Y2 then (results, some Err.assert_MAX_Y)
  else
    let plain_B_blk := server_table P Bt MAX_X2 MAX_Y2
    match forLoop MAX_X1.toNat
        (fun A_blk_idx results =>
          forLoop B.NumCols
            (server_col_step P enc_A_blks plain_B_blk MAX_Y1 A_blk_idx) results)
        results with
    | (results, Ctl.fail e) => (results, some e)
    | (results, _) => (results, none)

/-- The ciphertext the specification assigns to row tile `x` and output column `c`: one
`ModDown` of the sum, over the contraction tiles `0 .. MAX_Y - 1` in this order and starting
from the empty ciphertext, of `Multiply(cipher_A[x][tile], diag_B[c div l][tile][c mod l])`. -/
def evaluator_cell {G Ctxt ZZX PX : Type} (P : Provider G Ctxt ZZX PX)
    (cipher_A : Nat → Nat → Ctxt) (diag_B : Nat → Nat → Nat → ZZX) (MAX_Y x c : Nat) : Ctxt :=
  P.modDownToLevel
    ((List.range MAX_Y).foldl
      (fun acc tile =>
        P.add acc (P.multByConstant (cipher_A x tile) (diag_B (c / P.l) tile (c % P.l))))
      P.empty)
    1

/-- The tile of the grid at `(x, k)`, the empty ciphertext where the grid has none. -/
def cipher_of {G Ctxt ZZX PX : Type} (P : Provider G Ctxt ZZX PX) (enc_A_blks : List (List Ctxt))
    (x k : Nat) : Ctxt :=
  (tile_at enc_A_blks x k).getD P.empty

/-- The plaintext polynomial at offset `o` of the packed block `(y, k)` of `Bt`, the encoding
of no polynomial where the block has none. -/
def diag_of {G Ctxt ZZX PX : Type} (P : Provider G Ctxt ZZX PX) (Bt : Matrix) (y k o : Nat) :
    ZZX :=
  match (P.packed_polys Bt (y, k) true)[o]? with
  | some q => P.conv q
  | none => P.rawEncode []

/-- What the driver needs from `internal::partition` for the operand `B`: the packed block
holding row `c` of the transposed matrix `Bt` has a polynomial at offset `c mod l`. -/
def PolysCover {G Ctxt ZZX PX : Type} (P : Provider G Ctxt ZZX PX) (Bt : Matrix) : Prop :=
  ∀ c k, c < Bt.NumRows → c % P.l < (P.packed_polys Bt (c / P.l, k) true).length

/-! ## `play_client` -/

/-- The matrices of one trial (lines 146-151): the generator is seeded with 123, then `A`
(`n1 × n2`) and `B` (`n2 × n3`) are drawn. -/
def client_matrices {G : Type} (R : RandomStream G) (p : Int) (_g : G) (n1 n2 n3 : Nat) :
    Matrix × Matrix × G :=
  let g := R.SetSeed 123
  let A := randomize R (Matrix.SetDims n1 n2) p g
  let B := randomize R (Matrix.SetDims n2 n3) p A.2
  (A.1, B.1, B.2)

/-- State of the encryption loops of `play_client`: the grid `uploading`, the generator, and
the blocks handed to `Encrypt` so far, in call order (a ghost variable). -/
structure Upload (G Ctxt : Type) where
  uploading : List (List Ctxt)
  gen : G
  encrypted : List (Nat × Nat)

/-- The assignment `uploading[x][k] = ct` inside the grid. -/
def grid_set {Ctxt : Type} (grid : List (List Ctxt)) (x k : Nat) (ct : Ctxt) : List (List Ctxt) :=
  grid.modify (fun row => row.set k ct) x

/-- The encryption loops of `play_client` (lines 158-180). -/
def client_upload {G Ctxt ZZX PX : Type} (P : Provider G Ctxt ZZX PX) (A : Matrix) (g : G)
    (MAX_X1 MAX_Y1 : Int) : Upload G Ctxt :=
  forRange MAX_X1.toNat
    (fun x s => forRange MAX_Y1.toNat
      (fun k s =>
        let block := P.packed_polys A (x, k) false
        let packed_poly := P.rawEncode block
        let r := P.Encrypt s.gen packed_poly
        ⟨grid_set s.uploading x k r.1, r.2, s.encrypted ++ [(x, k)]⟩) s)
    ⟨List.replicate MAX_X1.toNat (List.replicate MAX_Y1.toNat P.empty), g, []⟩

/-- The state of the generator once `play_client` has made its first `i` calls of `Encrypt`,
the blocks of `A` being encrypted row tile by row tile, `Y` contraction tiles in each. -/
def upload_gen {G Ctxt ZZX PX : Type} (P : Provider G Ctxt ZZX PX) (A : Matrix) (g : G)
    (Y : Nat) : Nat → G
  | 0 => g
  | i + 1 =>
    (P.Encrypt (upload_gen P A g Y i) (P.rawEncode (P.packed_polys A (i / Y, i % Y) false))).2

/-- The ciphertext that `Encrypt` returns for block `(x, k)` of `A` when the blocks are
encrypted in this order: the encryption, in the generator state reached by the `x * Y + k`
earlier calls, of the packed encoding of the block. -/
def upload_tile {G Ctxt ZZX PX : Type} (P : Provider G Ctxt ZZX PX) (A : Matrix) (g : G)
    (Y x k : Nat) : Ctxt :=
  (P.Encrypt (upload_gen P A g Y (x * Y + k)) (P.rawEncode (P.packed_polys A (x, k) false))).1

/-- One pass of the decoding loop of `play_client` (lines 204-223) for the ciphertext `ctx`;
the state is the matrix `computed` and the counter `ctx_idx`. -/
def decode_step {G Ctxt ZZX PX : Type} (P : Provider G Ctxt ZZX PX) (cols_B : Nat) (ctx : Ctxt)
    (s : Matrix × Nat) : (Matrix × Nat) × Ctl :=
  let decrypted := P.faster_decrypt ctx
  let slots := P.extract_inner_products decrypted
  let row_blk := s.2 / cols_B
  let column := s.2 % cols_B
  match fill_compute s.1 row_blk column slots P.l with
  | .ok computed => ((computed, s.2 + 1), Ctl.go)
  | .error e => (s, Ctl.fail e)

/-- The decoding loop of `play_client` (lines 193-223): every returned ciphertext is decrypted,
its inner products extracted and written into `computed` by `fill_compute`. -/
def client_decode {G Ctxt ZZX PX : Type} (P : Provider G Ctxt ZZX PX) (rows_A cols_B : Nat)
    (ret_ctxs : List Ctxt) : Except Err Matrix :=
  let computed := zero (Matrix.SetDims rows_A cols_B)
  match forEach ret_ctxs (decode_step P cols_B) (computed, 0) with
  | (_, Ctl.fail e) => .error e
  | (s, _) => .ok s.1

/-- What one call of `play_client` leaves behind; `ctx_sent` and `ctx_rev` are the two `int`
fields of `ClientBenchmark`. -/
structure ClientRun (Ctxt : Type) where
  A : Matrix
  B : Matrix
  ground_truth : Matrix
  uploading : List (List Ctxt)
  encrypted : List (Nat × Nat)
  ctx_sent : Int
  ret_ctxs : List Ctxt
  thrown : Option Err
  ctx_rev : Int
  computed : Except Err Matrix
  warned : Bool

/-- The source's `play_client(sk, context, n1, n2, n3)`, started with the generator in state
`g`. When `play_server` throws, the exception leaves `play_client` too: `ret_ctxs` is then the
list as the server left it, `thrown` the error, and nothing is decoded. -/
def play_client {G Ctxt ZZX PX : Type} (R : RandomStream G) (P : Provider G Ctxt ZZX PX)
    (g : G) (n1 n2 n3 : Nat) : ClientRun Ctxt :=
  let AB := client_matrices R P.p g n1 n2 n3
  let A := AB.1
  let B := AB.2.1
  let ground_truth := mul A B
  let MAX_X1 := round_div A.NumRows P.l
  let MAX_Y1 := round_div A.NumCols P.d
  let up := client_upload P A AB.2.2 MAX_X1 MAX_Y1
  let ctx_sent := wrapInt (wrapLong (MAX_X1 * MAX_Y1))
  let ret := play_server P [] n1 B up.uploading
  let computed : Except Err Matrix :=
    match ret.2 with
    | some e => .error e
    | none => client_decode P A.NumRows B.NumCols ret.1
  let warned : Bool :=
    match computed with
    | .ok m => !(is_same ground_truth m P.p)
    | .error _ => false
  ⟨A, B, ground_truth, up.uploading, up.encrypted, ctx_sent, ret.1, ret.2,
    wrapInt ret.1.length, computed, warned⟩

/-! ## `trim` -/

/-- The value `std::string::npos` of a 64-bit `size_t`. -/
def npos : Nat := 2 ^ 64 - 1

/-- The source's `std::string::find_first_not_of(c)`: index of the first character different
from `c`, `none` standing for `npos`. -/
def find_first_not_of : List Char → Char → Option Nat
  | [], _ => none
  | x :: xs, c => if x ≠ c then some 0 else (find_first_not_of xs c).map (· + 1)

/-- The source's `std::string::find_last_not_of(c)`: index of the last character different
from `c`, `none` standing for `npos`. -/
def find_last_not_of : List Char → Char → Option Nat
  | [], _ => none
  | x :: xs, c =>
    match find_last_not_of xs c with
    | some i => some (i + 1)
    | none => if x ≠ c then some 0 else none

/-- The source's `std::string::substr(pos, count)`: throws (`none`) when `pos > size()`,
otherwise the characters `[pos, min(pos + count, size()))`. -/
def substr (s : List Char) (pos count : Nat) : Option (List Char) :=
  if pos ≤ s.length then some ((s.drop pos).take count) else none

/-- The source's `trim(line)` of `literal.cpp`; `last - first + 1` does not wrap, as
`first ≤ last`. -/
def trim (line : List Char) : Option (List Char) :=
  match find_first_not_of line ' ' with
  | none => some line
  | some first =>
    let last := (find_last_not_of line ' ').getD npos
    substr line first (last - first + 1)

/-! ## A plaintext mock of the provider -/

/-- A linear congruential generator standing in for NTL's stream. -/
def mockStream : RandomStream Nat where
  SetSeed := fun s => s.toNat
  RandomBnd := fun g n => ((((g * 1103515245 + 12345) % 2147483648 / 65536 : Nat) : Int) % n,
    (g * 1103515245 + 12345) % 2147483648)

/-- Sum of two coefficient vectors, the shorter one continued with zeros. -/
def addPoly : List Int → List Int → List Int
  | [], b => b
  | a :: as, [] => a :: as
  | a :: as, b :: bs => (a + b) :: addPoly as bs

/-- Lane-wise sum of two mock ciphertexts, the shorter one continued with empty lanes. -/
def addLanes : List (List Int) → List (List Int) → List (List Int)
  | [], b => b
  | a :: as, [] => a :: as
  | a :: as, b :: bs => addPoly a b :: addLanes as bs

/-- A provider that works on plaintext integers. A ciphertext holds, for each of the `l` lanes,
a coefficient vector. A packed block of a matrix holds one polynomial per row of the block: the
`d` entries of that row inside the block, zero outside the matrix. Multiplying by a constant
takes, lane by lane, the inner product of the two coefficient vectors. -/
def mockProvider (l d : Nat) (p : Int) :
    Provider Nat (List (List Int)) (List (List Int)) (List Int) where
  l := l
  d := d
  p := p
  empty := []
  multByConstant := fun ct pl =>
    List.zipWith (fun a b => [(List.zipWith (fun u v => u * v) a b).sum]) ct pl
  add := addLanes
  modDownToLevel := fun ct _ => ct
  conv := fun poly => List.replicate l poly
  packed_polys := fun M blk _ =>
    (List.range l).map fun lane =>
      (List.range d).map fun j =>
        if blk.1 * l + lane < M.NumRows ∧ blk.2 * d + j < M.NumCols
        then M.entry (blk.1 * l + lane) (blk.2 * d + j) else 0
  rawEncode := fun polys => polys
  Encrypt := fun g pl => (pl, g)
  faster_decrypt := fun ct => ct.map fun lane => lane.headD 0 % p
  extract_inner_products := fun v => v


/-! ## Loop lemmas -/

theorem forEach_nil {α σ : Type} (body : α → σ → σ × Ctl) (s : σ) :
    forEach [] body s = (s, Ctl.go) := rfl

theorem forEach_concat {α σ : Type} (xs : List α) (x : α) (body : α → σ → σ × Ctl) (s : σ) :
    forEach (xs ++ [x]) body s =
      match (forEach xs body s).2 with
      | Ctl.go => body x (forEach xs body s).1
      | _ => forEach xs body s := by
  simp [forEach, List.foldl_append]

theorem forLoop_zero {σ : Type} (body : Nat → σ → σ × Ctl) (s : σ) :
    forLoop 0 body s = (s, Ctl.go) := rfl

theorem forLoop_succ {σ : Type} (n : Nat) (body : Nat → σ → σ × Ctl) (s : σ) :
    forLoop (n + 1) body s =
      match (forLoop n body s).2 with
      | Ctl.go => body n (forLoop n body s).1
      | _ => forLoop n body s := by
  simp [forLoop, forEach, List.range_succ, List.foldl_append]

theorem forLoop_succ_go {σ : Type} (n : Nat) (body : Nat → σ → σ × Ctl) (s t : σ)
    (h : forLoop n body s = (t, Ctl.go)) : forLoop (n + 1) body s = body n t := by
  rw [forLoop_succ, h]

theorem forLoop_succ_left {σ : Type} (n : Nat) (body : Nat → σ → σ × Ctl) (s t : σ) (c : Ctl)
    (h : forLoop n body s = (t, c)) (hc : c ≠ Ctl.go) : forLoop (n + 1) body s = (t, c) := by
  rw [forLoop_succ, h]
  cases c with
  | go => exact absurd rfl hc
  | stop => rfl
  | fail e => rfl

theorem forLoop_left_stable {σ : Type} (n m : Nat) (body : Nat → σ → σ × Ctl) (s t : σ) (c : Ctl)
    (h : forLoop n body s = (t, c)) (hc : c ≠ Ctl.go) : forLoop (n + m) body s = (t, c) := by
  induction m with
  | zero => exact h
  | succ m ih => exact forLoop_succ_left (n + m) body s t c ih hc

theorem forRange_zero {σ : Type} (body : Nat → σ → σ) (s : σ) : forRange 0 body s = s := rfl

theorem forRange_succ {σ : Type} (n : Nat) (body : Nat → σ → σ) (s : σ) :
    forRange (n + 1) body s = body n (forRange n body s) := by
  simp [forRange, List.range_succ, List.foldl_append]

/-- An invariant kept by every pass of a total loop holds when the loop ends. -/
theorem forRange_invariant {σ : Type} (I : Nat → σ → Prop) (n : Nat) (body : Nat → σ → σ) (s : σ)
    (h0 : I 0 s) (hstep : ∀ i t, i < n → I i t → I (i + 1) (body i t)) :
    I n (forRange n body s) := by
  induction n with
  | zero => exact h0
  | succ n ih =>
    rw [forRange_succ]
    exact hstep n _ (Nat.lt_succ_self n)
      (ih (fun i t hi hI => hstep i t (Nat.lt_succ_of_lt hi) hI))

/-! ## `fill_compute` -/

/-- The lane loop of `fill_compute` after `n` passes, for a matrix that is not a single row. -/
theorem fill_compute_loop (mat : Matrix) (row_blk col : Nat) (inner_prod : List Int) (l : Nat)
    (hlen : inner_prod.length = l) (hcol : col < mat.NumCols) (n : Nat) (hn : n ≤ l) :
    ∃ m c, forLoop n (fill_step false (row_blk * l) col inner_prod) mat = (m, c)
      ∧ (c = Ctl.go ∨ (c = Ctl.stop ∧ mat.NumRows ≤ row_blk * l + n))
      ∧ m.NumRows = mat.NumRows ∧ m.NumCols = mat.NumCols
      ∧ ∀ r k, m.entry r k =
          if k = col ∧ row_blk * l ≤ r ∧ r < row_blk * l + n ∧ r < mat.NumRows
          then inner_prod.getD (r - row_blk * l) 0 else mat.entry r k := by
  induction n with
  | zero =>
    refine ⟨mat, Ctl.go, rfl, Or.inl rfl, rfl, rfl, ?_⟩
    intro r k
    rw [if_neg]
    omega
  | succ n ih =>
    obtain ⟨m, c, hrun, hc, hR, hC, hE⟩ := ih (by omega)
    have keep : ∀ r k, (r ≠ row_blk * l + n ∨ ¬ r < mat.NumRows ∨ k ≠ col) →
        m.entry r k =
          if k = col ∧ row_blk * l ≤ r ∧ r < row_blk * l + (n + 1) ∧ r < mat.NumRows
          then inner_prod.getD (r - row_blk * l) 0 else mat.entry r k := by
      intro r k hne
      rw [hE r k]
      by_cases h2 : k = col ∧ row_blk * l ≤ r ∧ r < row_blk * l + n ∧ r < mat.NumRows
      · rw [if_pos h2, if_pos ⟨h2.1, h2.2.1, by omega, h2.2.2.2⟩]
      · rw [if_neg h2, if_neg]
        rintro ⟨a, b, c, d⟩
        apply h2
        refine ⟨a, b, ?_, d⟩
        rcases hne with h | h | h
        · omega
        · exact absurd d h
        · exact absurd a h
    rcases hc with rfl | ⟨rfl, hstop⟩
    · rw [forLoop_succ_go n _ mat m hrun]
      obtain ⟨v, hv⟩ : ∃ v, inner_prod[n]? = some v :=
        ⟨inner_prod[n], List.getElem?_eq_getElem (by omega)⟩
      have hvD : inner_prod.getD n 0 = v := by
        rw [List.getD_eq_getElem?_getD, hv]; rfl
      by_cases hrow : row_blk * l + n < m.NumRows
      · have hput : m.put (row_blk * l + n) col v = .ok (m.set (row_blk * l + n) col v) := by
          simp [Matrix.put, hrow, hC, hcol]
        refine ⟨m.set (row_blk * l + n) col v, Ctl.go, ?_, Or.inl rfl, hR, hC, ?_⟩
        · simp [fill_step, hv, hrow, hput]
        · intro r k
          by_cases h1 : r = row_blk * l + n ∧ k = col
          · obtain ⟨rfl, rfl⟩ := h1
            rw [if_pos ⟨rfl, by omega, by omega, by omega⟩]
            simp only [Matrix.set, and_self, ↓reduceIte]
            rw [← hvD]; congr 1; omega
          · have : (m.set (row_blk * l + n) col v).entry r k = m.entry r k := by
              simp only [Matrix.set]; rw [if_neg h1]
            rw [this]
            apply keep
            by_cases hr : r = row_blk * l + n
            · exact Or.inr (Or.inr (fun hk => h1 ⟨hr, hk⟩))
            · exact Or.inl hr
      · refine ⟨m, Ctl.stop, ?_, Or.inr ⟨rfl, by omega⟩, hR, hC, ?_⟩
        · simp [fill_step, hv, hrow]
        · intro r k
          apply keep
          by_cases hr : r = row_blk * l + n
          · exact Or.inr (Or.inl (by omega))
          · exact Or.inl hr
    · refine ⟨m, Ctl.stop, forLoop_succ_left n _ mat m Ctl.stop hrun (by simp),
        Or.inr ⟨rfl, by omega⟩, hR, hC, ?_⟩
      intro r k
      apply keep
      by_cases hr : r = row_blk * l + n
      · exact Or.inr (Or.inl (by omega))
      · exact Or.inl hr

/-- For a result matrix with a number of rows other than one, `fill_compute` writes lane
`lane` of the slot vector to cell `(row_blk * l + lane, col)` for the lanes whose row exists,
and changes nothing else. -/
theorem fill_compute_multi_row (mat : Matrix) (row_blk col : Nat) (inner_prod : List Int)
    (l : Nat) (hlen : inner_prod.length = l) (hcol : col < mat.NumCols)
    (hrows : mat.NumRows ≠ 1) :
    ∃ m, fill_compute mat row_blk col inner_prod l = .ok m
      ∧ m.NumRows = mat.NumRows ∧ m.NumCols = mat.NumCols
      ∧ ∀ r k, m.entry r k =
          if k = col ∧ row_blk * l ≤ r ∧ r < row_blk * l + l ∧ r < mat.NumRows
          then inner_prod.getD (r - row_blk * l) 0 else mat.entry r k := by
  obtain ⟨m, c, hrun, hc, hR, hC, hE⟩ :=
    fill_compute_loop mat row_blk col inner_prod l hlen hcol l (le_refl l)
  refine ⟨m, ?_, hR, hC, hE⟩
  have hv : decide (mat.NumRows = 1) = false := by simp [hrows]
  unfold fill_compute
  simp only [hlen, ne_eq, not_true_eq_false, ↓reduceIte, hv]
  rw [hrun]
  rcases hc with rfl | ⟨rfl, _⟩ <;> rfl


/-- In a result matrix of a single row, the first lane of row tile 0 is written with the row and
column indices exchanged: for any column but the first the write leaves the matrix. -/
theorem fill_compute_single_row_loop (mat : Matrix) (col : Nat) (inner_prod : List Int) (l : Nat)
    (hrows : mat.NumRows = 1) (hcol : 1 ≤ col) (hlen : inner_prod.length = l) (hl : 1 ≤ l) :
    forLoop l (fill_step true (0 * l) col inner_prod) mat = (mat, Ctl.fail Err.index_mat) := by
  obtain ⟨v, hv⟩ : ∃ v, inner_prod[0]? = some v :=
    ⟨inner_prod[0], List.getElem?_eq_getElem (by omega)⟩
  have hput : mat.put col 0 v = .error Err.index_mat := by
    simp only [Matrix.put]
    rw [if_neg]
    omega
  have h1 : forLoop (0 + 1) (fill_step true (0 * l) col inner_prod) mat
      = (mat, Ctl.fail Err.index_mat) := by
    rw [forLoop_succ_go 0 _ mat mat (forLoop_zero _ _)]
    simp [fill_step, hv, hrows, hput]
  have := forLoop_left_stable 1 (l - 1) _ mat mat _ h1 (by simp)
  rwa [show 1 + (l - 1) = l by omega] at this

/-! ## Tile counts -/

theorem wrapLong_of_range (z : Int) (h0 : -(2 ^ 63) ≤ z) (h1 : z < 2 ^ 63) : wrapLong z = z := by
  unfold wrapLong
  rw [Int.emod_eq_of_lt (by linarith) (by linarith)]
  ring

theorem wrapInt_natCast (n : Nat) (h : n < 2 ^ 31) : wrapInt (n : Int) = (n : Int) := by
  have h' : (n : Int) < 2 ^ 31 := by exact_mod_cast h
  unfold wrapInt
  rw [Int.emod_eq_of_lt (by positivity) (by linarith)]
  ring

theorem wrapInt_wrapLong_natCast (n : Nat) (h : n < 2 ^ 31) :
    wrapInt (wrapLong (n : Int)) = (n : Int) := by
  have h' : (n : Int) < 2 ^ 31 := by exact_mod_cast h
  rw [wrapLong_of_range _ (by have : (0 : Int) ≤ n := by positivity
                              linarith) (by linarith)]
  exact wrapInt_natCast n h

theorem round_div_eq_ediv (a b : Int) (ha : 0 ≤ a) (hb : 1 ≤ b) (hrep : a + b - 1 < 2 ^ 63) :
    round_div a b = (a + b - 1) / b := by
  unfold round_div
  rw [wrapLong_of_range _ (by linarith) hrep]
  exact Int.tdiv_eq_ediv (by linarith) (by linarith)

theorem round_div_bounds (a b : Int) (ha : 0 ≤ a) (hb : 1 ≤ b) (hrep : a + b - 1 < 2 ^ 63) :
    a ≤ round_div a b * b ∧ (round_div a b - 1) * b < a := by
  rw [round_div_eq_ediv a b ha hb hrep]
  have hb0 : 0 < b := by linarith
  have h1 := Int.ediv_add_emod (a + b - 1) b
  have h2 := Int.emod_nonneg (a + b - 1) (ne_of_gt hb0)
  have h3 := Int.emod_lt_of_pos (a + b - 1) hb0
  constructor <;> nlinarith

theorem round_div_eq_ceil (a b : Int) (ha : 0 ≤ a) (hb : 1 ≤ b) (hrep : a + b - 1 < 2 ^ 63) :
    round_div a b = ⌈(a : ℚ) / (b : ℚ)⌉ := by
  obtain ⟨h1, h2⟩ := round_div_bounds a b ha hb hrep
  have hbq : (0 : ℚ) < (b : ℚ) := by exact_mod_cast (by linarith : 0 < b)
  symm
  rw [Int.ceil_eq_iff]
  constructor
  · rw [lt_div_iff₀ hbq]
    exact_mod_cast h2
  · rw [div_le_iff₀ hbq]
    exact_mod_cast h1

/-- The tile count of an extent `a` for tiles of size `b`, as the driver computes it, is the
natural number `⌈a / b⌉`. -/
theorem round_div_natCast (a b : Nat) (hb : 1 ≤ b) (hrep : a + b ≤ 2 ^ 63) :
    round_div (a : Int) (b : Int) = ((⌈(a : ℚ) / (b : ℚ)⌉₊ : Nat) : Int) := by
  have h := round_div_eq_ceil (a : Int) (b : Int) (by positivity) (by exact_mod_cast hb)
    (by have : ((a + b : Nat) : Int) ≤ 2 ^ 63 := by exact_mod_cast hrep
        push_cast at this; linarith)
  rw [h]
  have hnn : (0 : ℚ) ≤ (a : ℚ) / (b : ℚ) := by positivity
  rw [Int.natCast_ceil_eq_ceil hnn]
  simp

theorem ceil_tiles_bounds (a b : Nat) (hb : 1 ≤ b) :
    a ≤ ⌈(a : ℚ) / (b : ℚ)⌉₊ * b ∧ ∀ r, r < a → r / b < ⌈(a : ℚ) / (b : ℚ)⌉₊ := by
  have hbq : (0 : ℚ) < (b : ℚ) := by exact_mod_cast hb
  have h1 : a ≤ ⌈(a : ℚ) / (b : ℚ)⌉₊ * b := by
    have := Nat.le_ceil ((a : ℚ) / (b : ℚ))
    rw [div_le_iff₀ hbq] at this
    exact_mod_cast this
  refine ⟨h1, fun r hr => ?_⟩
  rw [Nat.div_lt_iff_lt_mul (by omega)]
  omega

/-! ## Lists indexed by a pair of loop counters -/

theorem range_mul_succ_map {α : Type} (f : Nat → Nat → α) (X n : Nat) :
    (List.range ((X + 1) * n)).map (fun i => f (i / n) (i % n))
      = (List.range (X * n)).map (fun i => f (i / n) (i % n)) ++ (List.range n).map (f X) := by
  rw [show (X + 1) * n = X * n + n by ring, List.range_add, List.map_append, List.map_map]
  congr 1
  apply List.map_congr_left
  intro j hj
  have hj' : j < n := List.mem_range.mp hj
  have hn : 0 < n := by omega
  simp only [Function.comp]
  have e1 : (X * n + j) / n = X := by
    rw [Nat.mul_comm, Nat.mul_add_div hn, Nat.div_eq_of_lt hj']; simp
  have e2 : (X * n + j) % n = j := by
    rw [Nat.mul_comm, Nat.mul_add_mod, Nat.mod_eq_of_lt hj']
  rw [e1, e2]

theorem getElem?_range_pairs {α : Type} (f : Nat → Nat → α) (X n x c : Nat) (hx : x < X)
    (hc : c < n) :
    ((List.range (X * n)).map (fun i => f (i / n) (i % n)))[x * n + c]? = some (f x c) := by
  have hn : 0 < n := by omega
  have hlt : x * n + c < X * n := by
    have : (x + 1) * n ≤ X * n := Nat.mul_le_mul_right n hx
    have e : (x + 1) * n = x * n + n := by ring
    omega
  rw [List.getElem?_map, List.getElem?_range hlt]
  have e1 : (x * n + c) / n = x := by
    rw [Nat.mul_comm, Nat.mul_add_div hn, Nat.div_eq_of_lt hc]; simp
  have e2 : (x * n + c) % n = c := by
    rw [Nat.mul_comm, Nat.mul_add_mod, Nat.mod_eq_of_lt hc]
  simp [e1, e2]

/-! ## `play_server` -/

theorem server_table_length {G Ctxt ZZX PX : Type} (P : Provider G Ctxt ZZX PX) (Bt : Matrix)
    (X2 Y2 : Nat) : (server_table P Bt X2 Y2).length = X2 := by
  simp [server_table]

theorem block_at_server_table {G Ctxt ZZX PX : Type} (P : Provider G Ctxt ZZX PX) (Bt : Matrix)
    (X2 Y2 y k : Nat) (hy : y < X2) (hk : k < Y2) :
    block_at (server_table P Bt X2 Y2) y k = some (P.packed_polys Bt (y, k) true) := by
  simp [block_at, server_table, List.getElem?_map, List.getElem?_range hy,
    List.getElem?_range hk]

/-- The `prtn` loop when every tile and polynomial it looks up exists: the running sum. -/
theorem server_sum_loop {G Ctxt ZZX PX : Type} (P : Provider G Ctxt ZZX PX)
    (enc : List (List Ctxt)) (table : List (List (List PX))) (x y o : Nat)
    (E : Nat → Ctxt) (Q : Nat → ZZX) (n : Nat)
    (hE : ∀ k, k < n → tile_at enc x k = some (E k))
    (hQ : ∀ k, k < n → ∃ polys q, block_at table y k = some polys ∧ polys[o]? = some q
      ∧ P.conv q = Q k) :
    forLoop n (server_step P enc table x y o) P.empty
      = ((List.range n).foldl (fun acc k => P.add acc (P.multByConstant (E k) (Q k))) P.empty,
          Ctl.go) := by
  induction n with
  | zero => rfl
  | succ n ih =>
    have h := ih (fun k hk => hE k (by omega)) (fun k hk => hQ k (by omega))
    rw [forLoop_succ_go n _ _ _ h]
    obtain ⟨polys, q, hb, hq, hc⟩ := hQ n (by omega)
    simp [server_step, hE n (by omega), hb, hq, hc, List.range_succ, List.foldl_append]

theorem server_cell_ok {G Ctxt ZZX PX : Type} (P : Provider G Ctxt ZZX PX)
    (enc : List (List Ctxt)) (table : List (List (List PX))) (Y x c : Nat)
    (cipher_A : Nat → Nat → Ctxt) (diag_B : Nat → Nat → Nat → ZZX)
    (hblk : c / P.l ≤ table.length)
    (hE : ∀ k, k < Y → tile_at enc x k = some (cipher_A x k))
    (hQ : ∀ k, k < Y → ∃ polys q, block_at table (c / P.l) k = some polys
      ∧ polys[c % P.l]? = some q ∧ P.conv q = diag_B (c / P.l) k (c % P.l)) :
    server_cell P enc table (Y : Int) x c = .ok (evaluator_cell P cipher_A diag_B Y x c) := by
  unfold server_cell
  simp only [hblk, not_true_eq_false, ↓reduceIte, Int.toNat_ofNat]
  rw [server_sum_loop P enc table x (c / P.l) (c % P.l) (cipher_A x)
    (fun k => diag_B (c / P.l) k (c % P.l)) Y hE hQ]
  rfl

theorem server_col_loop {G Ctxt ZZX PX : Type} (P : Provider G Ctxt ZZX PX)
    (enc : List (List Ctxt)) (table : List (List (List PX))) (Y : Int) (x : Nat)
    (cell : Nat → Ctxt) (n : Nat) (results : List Ctxt)
    (hcell : ∀ c, c < n → server_cell P enc table Y x c = .ok (cell c)) :
    forLoop n (server_col_step P enc table Y x) results
      = (results ++ (List.range n).map cell, Ctl.go) := by
  induction n with
  | zero => simp [forLoop_zero]
  | succ n ih =>
    rw [forLoop_succ_go n _ _ _ (ih (fun c hc => hcell c (by omega)))]
    simp [server_col_step, hcell n (by omega), List.range_succ]

theorem server_row_loop {G Ctxt ZZX PX : Type} (P : Provider G Ctxt ZZX PX)
    (enc : List (List Ctxt)) (table : List (List (List PX))) (Y : Int)
    (cell : Nat → Nat → Ctxt) (X n : Nat) (results : List Ctxt)
    (hcell : ∀ x c, x < X → c < n → server_cell P enc table Y x c = .ok (cell x c)) :
    forLoop X (fun x res => forLoop n (server_col_step P enc table Y x) res) results
      = (results ++ (List.range (X * n)).map (fun i => cell (i / n) (i % n)), Ctl.go) := by
  induction X with
  | zero => simp [forLoop_zero]
  | succ X ih =>
    rw [forLoop_succ_go X _ _ _ (ih (fun x c hx hc => hcell x c (by omega) hc))]
    rw [server_col_loop P enc table Y X (cell X) n _ (fun c hc => hcell X c (by omega) hc)]
    rw [range_mul_succ_map, List.append_assoc]

/-- The tile counts of `play_server` as natural numbers. -/
theorem play_server_unfold {G Ctxt ZZX PX : Type} (P : Provider G Ctxt ZZX PX)
    (results : List Ctxt) (n1 : Nat) (B : Matrix) (enc : List (List Ctxt))
    (hl : 1 ≤ P.l) (hd : 1 ≤ P.d) (r1 : n1 + P.l ≤ 2 ^ 63) (r2 : B.NumRows + P.d ≤ 2 ^ 63)
    (r3 : B.NumCols + P.l ≤ 2 ^ 63) :
    play_server P results (n1 : Int) B enc =
      match forLoop ⌈(n1 : ℚ) / (P.l : ℚ)⌉₊
        (fun x res => forLoop B.NumCols
          (server_col_step P enc
            (server_table P (transpose B) (⌈(B.NumCols : ℚ) / (P.l : ℚ)⌉₊ : Nat)
              (⌈(B.NumRows : ℚ) / (P.d : ℚ)⌉₊ : Nat))
            (⌈(B.NumRows : ℚ) / (P.d : ℚ)⌉₊ : Nat) x) res) results with
      | (res, Ctl.fail e) => (res, some e)
      | (res, _) => (res, none) := by
  unfold play_server
  simp only [transpose, round_div_natCast n1 P.l hl r1, round_div_natCast B.NumRows P.d hd r2,
    round_div_natCast B.NumCols P.l hl r3, ne_eq, not_true_eq_false, ↓reduceIte,
    Int.toNat_ofNat]

/-- The polynomials `play_server` looks up for output column `c`, when `partition` covers the
rows of the transposed operand. -/
theorem server_polys_present {G Ctxt ZZX PX : Type} (P : Provider G Ctxt ZZX PX) (B : Matrix)
    (hl : 1 ≤ P.l) (hcover : PolysCover P (transpose B)) (Y c k : Nat) (hc : c < B.NumCols)
    (hk : k < Y) :
    ∃ polys q, block_at (server_table P (transpose B) (⌈(B.NumCols : ℚ) / (P.l : ℚ)⌉₊ : Nat) Y)
        (c / P.l) k = some polys ∧ polys[c % P.l]? = some q := by
  have hy : c / P.l < ⌈(B.NumCols : ℚ) / (P.l : ℚ)⌉₊ := (ceil_tiles_bounds B.NumCols P.l hl).2 c hc
  have hlen := hcover c k (by simpa [transpose] using hc)
  exact ⟨_, _, block_at_server_table P (transpose B) _ Y (c / P.l) k hy hk,
    List.getElem?_eq_getElem hlen⟩

theorem server_cell_of_table {G Ctxt ZZX PX : Type} (P : Provider G Ctxt ZZX PX) (B : Matrix)
    (enc : List (List Ctxt)) (cipher_A : Nat → Nat → Ctxt) (diag_B : Nat → Nat → Nat → ZZX)
    (hl : 1 ≤ P.l) (Y x c : Nat) (hc : c < B.NumCols)
    (hE : ∀ k, k < Y → tile_at enc x k = some (cipher_A x k))
    (hQ : ∀ k, k < Y →
      ∃ q, (P.packed_polys (transpose B) (c / P.l, k) true)[c % P.l]? = some q
        ∧ P.conv q = diag_B (c / P.l) k (c % P.l)) :
    server_cell P enc
        (server_table P (transpose B) (⌈(B.NumCols : ℚ) / (P.l : ℚ)⌉₊ : Nat) Y) (Y : Int) x c
      = .ok (evaluator_cell P cipher_A diag_B Y x c) := by
  have hy : c / P.l < ⌈(B.NumCols : ℚ) / (P.l : ℚ)⌉₊ :=
    (ceil_tiles_bounds B.NumCols P.l hl).2 c hc
  apply server_cell_ok
  · rw [server_table_length]; omega
  · exact hE
  · intro k hk
    obtain ⟨q, hq, hconv⟩ := hQ k hk
    exact ⟨_, q, block_at_server_table P (transpose B) _ _ (c / P.l) k hy hk, hq, hconv⟩

/-- A run of `play_server` in which every looked-up tile and polynomial exists appends the
cells of the specification, row tile by row tile and column by column. -/
theorem play_server_run {G Ctxt ZZX PX : Type} (P : Provider G Ctxt ZZX PX)
    (results : List Ctxt) (n1 : Nat) (B : Matrix) (enc : List (List Ctxt))
    (cipher_A : Nat → Nat → Ctxt) (diag_B : Nat → Nat → Nat → ZZX)
    (hl : 1 ≤ P.l) (hd : 1 ≤ P.d) (r1 : n1 + P.l ≤ 2 ^ 63) (r2 : B.NumRows + P.d ≤ 2 ^ 63)
    (r3 : B.NumCols + P.l ≤ 2 ^ 63)
    (hE : ∀ x k, x < ⌈(n1 : ℚ) / (P.l : ℚ)⌉₊ → k < ⌈(B.NumRows : ℚ) / (P.d : ℚ)⌉₊ →
      tile_at enc x k = some (cipher_A x k))
    (hQ : ∀ c k, c < B.NumCols → k < ⌈(B.NumRows : ℚ) / (P.d : ℚ)⌉₊ →
      ∃ q, (P.packed_polys (transpose B) (c / P.l, k) true)[c % P.l]? = some q
        ∧ P.conv q = diag_B (c / P.l) k (c % P.l)) :
    play_server P results (n1 : Int) B enc
      = (results ++ (List.range (⌈(n1 : ℚ) / (P.l : ℚ)⌉₊ * B.NumCols)).map
          (fun i => evaluator_cell P cipher_A diag_B ⌈(B.NumRows : ℚ) / (P.d : ℚ)⌉₊
            (i / B.NumCols) (i % B.NumCols)), none) := by
  rw [play_server_unfold P results n1 B enc hl hd r1 r2 r3]
  rw [server_row_loop P enc _ _ _ _ _ results
    (fun x c hx hc => server_cell_of_table P B enc cipher_A diag_B hl _ x c hc
      (fun k hk => hE x k hx hk) (fun k hk => hQ c k hc hk))]

theorem tile_at_cipher_of {G Ctxt ZZX PX : Type} (P : Provider G Ctxt ZZX PX)
    (enc : List (List Ctxt)) (x k : Nat) (h : (tile_at enc x k).isSome) :
    tile_at enc x k = some (cipher_of P enc x k) := by
  unfold cipher_of
  cases ht : tile_at enc x k with
  | none => simp [ht] at h
  | some v => rfl

theorem polys_diag_of {G Ctxt ZZX PX : Type} (P : Provider G Ctxt ZZX PX) (B : Matrix)
    (hcover : PolysCover P (transpose B)) (c k : Nat) (hc : c < B.NumCols) :
    ∃ q, (P.packed_polys (transpose B) (c / P.l, k) true)[c % P.l]? = some q
      ∧ P.conv q = diag_of P (transpose B) (c / P.l) k (c % P.l) := by
  have hlen := hcover c k (by simpa [transpose] using hc)
  refine ⟨_, List.getElem?_eq_getElem hlen, ?_⟩
  simp [diag_of, List.getElem?_eq_getElem hlen]

/-- The `prtn` loop stops with `std::out_of_range` at the first missing tile of the row. -/
theorem server_sum_missing {G Ctxt ZZX PX : Type} (P : Provider G Ctxt ZZX PX)
    (enc : List (List Ctxt)) (table : List (List (List PX))) (x y o n : Nat)
    (hQ : ∀ k, k < n → ∃ polys q, block_at table y k = some polys ∧ polys[o]? = some q)
    (hmiss : ∃ k, k < n ∧ tile_at enc x k = none) :
    ∃ s, forLoop n (server_step P enc table x y o) P.empty = (s, Ctl.fail Err.at_enc_A_blks) := by
  induction n with
  | zero => obtain ⟨k, hk, _⟩ := hmiss; omega
  | succ n ih =>
    by_cases h : ∃ k, k < n ∧ tile_at enc x k = none
    · obtain ⟨s, hs⟩ := ih (fun k hk => hQ k (by omega)) h
      exact ⟨s, forLoop_succ_left n _ _ s _ hs (by simp)⟩
    · have hn : tile_at enc x n = none := by
        obtain ⟨k, hk, hnone⟩ := hmiss
        by_cases hkn : k = n
        · rw [← hkn]; exact hnone
        · exact absurd ⟨k, by omega, hnone⟩ h
      have hpres : ∀ k, k < n → tile_at enc x k = some ((tile_at enc x k).getD P.empty) := by
        intro k hk
        cases hk' : tile_at enc x k with
        | none => exact absurd ⟨k, hk, hk'⟩ h
        | some v => rfl
      have hQ' : ∀ k, k < n → ∃ polys q, block_at table y k = some polys ∧ polys[o]? = some q
          ∧ P.conv q = (fun k => match (block_at table y k).bind (fun ps => ps[o]?) with
            | some q => P.conv q
            | none => P.rawEncode []) k := by
        intro k hk
        obtain ⟨polys, q, hb, hq⟩ := hQ k (by omega)
        exact ⟨polys, q, hb, hq, by simp [hb, hq]⟩
      have hrun := server_sum_loop P enc table x y o _ _ n hpres hQ'
      obtain ⟨t, ht⟩ : ∃ t, forLoop n (server_step P enc table x y o) P.empty = (t, Ctl.go) :=
        ⟨_, hrun⟩
      rw [forLoop_succ_go n _ _ t ht]
      exact ⟨t, by simp [server_step, hn]⟩

theorem server_row_missing {G Ctxt ZZX PX : Type} (P : Provider G Ctxt ZZX PX)
    (enc : List (List Ctxt)) (table : List (List (List PX))) (Y x n : Nat)
    (results : List Ctxt) (hn : 1 ≤ n)
    (hQ : ∀ k, k < Y → ∃ polys q, block_at table 0 k = some polys ∧ polys[0]? = some q)
    (hmiss : ∃ k, k < Y ∧ tile_at enc x k = none) :
    forLoop n (server_col_step P enc table (Y : Int) x) results
      = (results, Ctl.fail Err.at_enc_A_blks) := by
  obtain ⟨s, hs⟩ := server_sum_missing P enc table x 0 0 Y hQ hmiss
  have h0 : server_cell P enc table (Y : Int) x 0 = .error Err.at_enc_A_blks := by
    unfold server_cell
    have e1 : 0 / P.l = 0 := Nat.zero_div _
    have e2 : 0 % P.l = 0 := Nat.zero_mod _
    simp only [e1, e2, Nat.zero_le, not_true_eq_false, ↓reduceIte, Int.toNat_ofNat, hs]
  have h1 : forLoop (0 + 1) (server_col_step P enc table (Y : Int) x) results
      = (results, Ctl.fail Err.at_enc_A_blks) := by
    rw [forLoop_succ_go 0 _ _ _ (forLoop_zero _ _)]
    simp [server_col_step, h0]
  have := forLoop_left_stable 1 (n - 1) _ results results _ h1 (by simp)
  rwa [show 1 + (n - 1) = n by omega] at this

/-- A loop whose passes either continue or fail with the error `e` ends in one of the two. -/
theorem forLoop_go_or_fail {σ : Type} (e : Err) (n : Nat) (body : Nat → σ → σ × Ctl) (s : σ)
    (h : ∀ i t, i < n → (body i t).2 = Ctl.go ∨ (body i t).2 = Ctl.fail e) :
    (forLoop n body s).2 = Ctl.go ∨ (forLoop n body s).2 = Ctl.fail e := by
  induction n with
  | zero => exact Or.inl rfl
  | succ n ih =>
    rcases ih (fun i t hi => h i t (by omega)) with hgo | hfail
    · rw [forLoop_succ, hgo]
      exact h n _ (by omega)
    · rw [forLoop_succ, hfail]
      exact Or.inr hfail

theorem tile_at_of_shape {Ctxt : Type} (enc : List (List Ctxt)) (X Y x k : Nat)
    (hlen : enc.length = X) (hrow : ∀ row, row ∈ enc → row.length = Y) (hx : x < X)
    (hk : k < Y) : (tile_at enc x k).isSome := by
  have hx' : x < enc.length := by omega
  have hmem : enc[x] ∈ enc := List.getElem_mem _
  have hk' : k < (enc[x]).length := by rw [hrow _ hmem]; exact hk
  simp [tile_at, List.getElem?_eq_getElem hx', List.getElem?_eq_getElem hk']

/-- With every needed tile in the grid, `play_server` can only fail at `polys.at(offset)`. -/
theorem play_server_only_polys {G Ctxt ZZX PX : Type} (P : Provider G Ctxt ZZX PX)
    (results : List Ctxt) (n1 : Nat) (B : Matrix) (enc : List (List Ctxt))
    (hl : 1 ≤ P.l) (hd : 1 ≤ P.d) (r1 : n1 + P.l ≤ 2 ^ 63) (r2 : B.NumRows + P.d ≤ 2 ^ 63)
    (r3 : B.NumCols + P.l ≤ 2 ^ 63)
    (hE : ∀ x k, x < ⌈(n1 : ℚ) / (P.l : ℚ)⌉₊ → k < ⌈(B.NumRows : ℚ) / (P.d : ℚ)⌉₊ →
      (tile_at enc x k).isSome) :
    (play_server P results (n1 : Int) B enc).2 = none
      ∨ (play_server P results (n1 : Int) B enc).2 = some Err.at_polys := by
  rw [play_server_unfold P results n1 B enc hl hd r1 r2 r3]
  have hstep : ∀ x c k s, x < ⌈(n1 : ℚ) / (P.l : ℚ)⌉₊ → c < B.NumCols →
      k < ⌈(B.NumRows : ℚ) / (P.d : ℚ)⌉₊ →
      (server_step P enc (server_table P (transpose B) (⌈(B.NumCols : ℚ) / (P.l : ℚ)⌉₊ : Nat)
          (⌈(B.NumRows : ℚ) / (P.d : ℚ)⌉₊ : Nat)) x (c / P.l) (c % P.l) k s).2 = Ctl.go
      ∨ (server_step P enc (server_table P (transpose B) (⌈(B.NumCols : ℚ) / (P.l : ℚ)⌉₊ : Nat)
          (⌈(B.NumRows : ℚ) / (P.d : ℚ)⌉₊ : Nat)) x (c / P.l) (c % P.l) k s).2
          = Ctl.fail Err.at_polys := by
    intro x c k s hx hc hk
    have hy : c / P.l < ⌈(B.NumCols : ℚ) / (P.l : ℚ)⌉₊ :=
      (ceil_tiles_bounds B.NumCols P.l hl).2 c hc
    have ht := tile_at_cipher_of P enc x k (hE x k hx hk)
    have hb := block_at_server_table P (transpose B) _ _ (c / P.l) k hy hk
    unfold server_step
    simp only [ht, hb]
    cases (P.packed_polys (transpose B) (c / P.l, k) true)[c % P.l]? with
    | none => exact Or.inr rfl
    | some q => exact Or.inl rfl
  have hcol : ∀ x c res, x < ⌈(n1 : ℚ) / (P.l : ℚ)⌉₊ → c < B.NumCols →
      (server_col_step P enc (server_table P (transpose B)
          (⌈(B.NumCols : ℚ) / (P.l : ℚ)⌉₊ : Nat) (⌈(B.NumRows : ℚ) / (P.d : ℚ)⌉₊ : Nat))
          (⌈(B.NumRows : ℚ) / (P.d : ℚ)⌉₊ : Nat) x c res).2 = Ctl.go
      ∨ (server_col_step P enc (server_table P (transpose B)
          (⌈(B.NumCols : ℚ) / (P.l : ℚ)⌉₊ : Nat) (⌈(B.NumRows : ℚ) / (P.d : ℚ)⌉₊ : Nat))
          (⌈(B.NumRows : ℚ) / (P.d : ℚ)⌉₊ : Nat) x c res).2 = Ctl.fail Err.at_polys := by
    intro x c res hx hc
    have hy : c / P.l < ⌈(B.NumCols : ℚ) / (P.l : ℚ)⌉₊ :=
      (ceil_tiles_bounds B.NumCols P.l hl).2 c hc
    have hblk : c / P.l ≤ (server_table P (transpose B)
        (⌈(B.NumCols : ℚ) / (P.l : ℚ)⌉₊ : Nat) (⌈(B.NumRows : ℚ) / (P.d : ℚ)⌉₊ : Nat)).length := by
      rw [server_table_length]; omega
    have hsum := forLoop_go_or_fail Err.at_polys ⌈(B.NumRows : ℚ) / (P.d : ℚ)⌉₊
      (server_step P enc (server_table P (transpose B) (⌈(B.NumCols : ℚ) / (P.l : ℚ)⌉₊ : Nat)
          (⌈(B.NumRows : ℚ) / (P.d : ℚ)⌉₊ : Nat)) x (c / P.l) (c % P.l)) P.empty
      (fun k s hk => hstep x c k s hx hc hk)
    unfold server_col_step server_cell
    simp only [hblk, not_true_eq_false, ↓reduceIte, Int.toNat_ofNat]
    generalize forLoop _ (server_step P enc _ x (c / P.l) (c % P.l)) P.empty = r at hsum ⊢
    obtain ⟨s, ctl⟩ := r
    rcases hsum with h | h
    · simp only at h; subst h; exact Or.inl rfl
    · simp only at h; subst h; exact Or.inr rfl
  have hrows := forLoop_go_or_fail Err.at_polys ⌈(n1 : ℚ) / (P.l : ℚ)⌉₊
    (fun x res => forLoop B.NumCols
      (server_col_step P enc (server_table P (transpose B)
          (⌈(B.NumCols : ℚ) / (P.l : ℚ)⌉₊ : Nat) (⌈(B.NumRows : ℚ) / (P.d : ℚ)⌉₊ : Nat))
          (⌈(B.NumRows : ℚ) / (P.d : ℚ)⌉₊ : Nat) x) res) results
    (fun x res hx => forLoop_go_or_fail Err.at_polys B.NumCols _ res
      (fun c t hc => hcol x c t hx hc))
  generalize forLoop _ (fun x res => forLoop B.NumCols _ res) results = r at hrows ⊢
  obtain ⟨s, ctl⟩ := r
  rcases hrows with h | h
  · simp only at h; subst h; exact Or.inl rfl
  · simp only at h; subst h; exact Or.inr rfl

/-! ## The mock provider -/

theorem mockProvider_cover (l d : Nat) (p : Int) (hl : 1 ≤ l) (M : Matrix) :
    PolysCover (mockProvider l d p) M := by
  intro c k _
  simp only [mockProvider, List.length_map, List.length_range]
  exact Nat.mod_lt _ (by omega)

/-! ## Claims about `play_server` -/

/-- C2: over an abstract provider, for every row tile `x < ⌈n1 / l⌉` and output column
`c < cols(B)`, the ciphertext `play_server` emits for `(x, c)` (found at position
`x * cols(B) + c` of what it appends) is one `modDownToLevel` of the sum, taken in the order
`k = 0 .. ⌈rows(B) / d⌉ - 1` from the empty ciphertext, of
`multByConstant(enc_A_blks[x][k], conv(plain_B_blk[c / l][k].polys[c % l]))`; the grid
`enc_A_blks` is a read-only argument. -/
theorem play_server_emits_evaluator_cells {G Ctxt ZZX PX : Type} (P : Provider G Ctxt ZZX PX)
    (results : List Ctxt) (n1 : Nat) (B : Matrix) (enc : List (List Ctxt))
    (cipher_A : Nat → Nat → Ctxt) (diag_B : Nat → Nat → Nat → ZZX)
    (hl : 1 ≤ P.l) (hd : 1 ≤ P.d) (r1 : n1 + P.l ≤ 2 ^ 63) (r2 : B.NumRows + P.d ≤ 2 ^ 63)
    (r3 : B.NumCols + P.l ≤ 2 ^ 63)
    (hE : ∀ x k, x < ⌈(n1 : ℚ) / (P.l : ℚ)⌉₊ → k < ⌈(B.NumRows : ℚ) / (P.d : ℚ)⌉₊ →
      tile_at enc x k = some (cipher_A x k))
    (hQ : ∀ c k, c < B.NumCols → k < ⌈(B.NumRows : ℚ) / (P.d : ℚ)⌉₊ →
      ∃ q, (P.packed_polys (transpose B) (c / P.l, k) true)[c % P.l]? = some q
        ∧ P.conv q = diag_B (c / P.l) k (c % P.l)) :
    ∃ out, play_server P results (n1 : Int) B enc = (results ++ out, none)
      ∧ ∀ x c, x < ⌈(n1 : ℚ) / (P.l : ℚ)⌉₊ → c < B.NumCols →
          out[x * B.NumCols + c]?
            = some (evaluator_cell P cipher_A diag_B ⌈(B.NumRows : ℚ) / (P.d : ℚ)⌉₊ x c)
          ∧ server_cell P enc
              (server_table P (transpose B) (round_div (transpose B).NumRows P.l)
                (round_div (transpose B).NumCols P.d))
              (round_div B.NumRows P.d) x c
            = .ok (evaluator_cell P cipher_A diag_B ⌈(B.NumRows : ℚ) / (P.d : ℚ)⌉₊ x c) := by
  refine ⟨_, play_server_run P results n1 B enc cipher_A diag_B hl hd r1 r2 r3 hE hQ, ?_⟩
  intro x c hx hc
  refine ⟨getElem?_range_pairs _ _ _ x c hx hc, ?_⟩
  simp only [show (transpose B).NumRows = B.NumCols from rfl,
    show (transpose B).NumCols = B.NumRows from rfl, round_div_natCast B.NumRows P.d hd r2,
    round_div_natCast B.NumCols P.l hl r3]
  exact server_cell_of_table P B enc cipher_A diag_B hl _ x c hc
    (fun k hk => hE x k hx hk) (fun k hk => hQ c k hc hk)

/-- C9: for a grid `enc_A_blks` of shape `⌈n1 / l⌉ × ⌈rows(B) / d⌉`, both assertions of
`play_server` hold and every lookup is in range: `MAX_Y1 = MAX_Y2`; for every
`col_B < cols(B)` the block index `col_B / l` is at most the number of rows of `plain_B_blk`,
indeed below `MAX_X2`, and the offset `col_B % l` is below `l`; every `prtn < MAX_Y1` is below
`MAX_Y2`, `enc_A_blks.at(A_blk_idx).at(prtn)` finds its tile and `plain_B_blk[B_blk_idx][prtn]`
its block; so a run can end abnormally only in `polys.at(offset)`. -/
theorem play_server_lookups_in_range {G Ctxt ZZX PX : Type} (P : Provider G Ctxt ZZX PX)
    (results : List Ctxt) (n1 : Nat) (B : Matrix) (enc : List (List Ctxt))
    (hl : 1 ≤ P.l) (hd : 1 ≤ P.d) (r1 : n1 + P.l ≤ 2 ^ 63) (r2 : B.NumRows + P.d ≤ 2 ^ 63)
    (r3 : B.NumCols + P.l ≤ 2 ^ 63)
    (hlen : enc.length = ⌈(n1 : ℚ) / (P.l : ℚ)⌉₊)
    (hrow : ∀ row, row ∈ enc → row.length = ⌈(B.NumRows : ℚ) / (P.d : ℚ)⌉₊) :
    round_div B.NumRows P.d = round_div (transpose B).NumCols P.d
    ∧ (∀ col_B, col_B < B.NumCols →
        col_B / P.l ≤ (server_table P (transpose B) (round_div (transpose B).NumRows P.l)
            (round_div (transpose B).NumCols P.d)).length
        ∧ ((col_B / P.l : Nat) : Int) < round_div (transpose B).NumRows P.l
        ∧ col_B % P.l < P.l
        ∧ ∀ A_blk_idx prtn : Nat, (A_blk_idx : Int) < round_div n1 P.l →
            (prtn : Int) < round_div B.NumRows P.d →
            (prtn : Int) < round_div (transpose B).NumCols P.d
            ∧ (tile_at enc A_blk_idx prtn).isSome
            ∧ (block_at (server_table P (transpose B) (round_div (transpose B).NumRows P.l)
                (round_div (transpose B).NumCols P.d)) (col_B / P.l) prtn).isSome)
    ∧ ((play_server P results (n1 : Int) B enc).2 = none
        ∨ (play_server P results (n1 : Int) B enc).2 = some Err.at_polys) := by
  have hE : ∀ x k, x < ⌈(n1 : ℚ) / (P.l : ℚ)⌉₊ → k < ⌈(B.NumRows : ℚ) / (P.d : ℚ)⌉₊ →
      (tile_at enc x k).isSome := fun x k hx hk => tile_at_of_shape enc _ _ x k hlen hrow hx hk
  refine ⟨rfl, ?_, play_server_only_polys P results n1 B enc hl hd r1 r2 r3 hE⟩
  intro col_B hc
  have hy : col_B / P.l < ⌈(B.NumCols : ℚ) / (P.l : ℚ)⌉₊ :=
    (ceil_tiles_bounds B.NumCols P.l hl).2 col_B hc
  simp only [show (transpose B).NumRows = B.NumCols from rfl,
    show (transpose B).NumCols = B.NumRows from rfl, round_div_natCast B.NumRows P.d hd r2,
    round_div_natCast B.NumCols P.l hl r3, round_div_natCast n1 P.l hl r1, Nat.cast_lt]
  refine ⟨?_, hy, Nat.mod_lt _ (by omega), ?_⟩
  · rw [server_table_length]; omega
  · intro x k hx hk
    refine ⟨hk, hE x k hx hk, ?_⟩
    rw [block_at_server_table P (transpose B) _ _ (col_B / P.l) k hy hk]
    rfl

/-- C7, as the code behaves: `play_server` validates nothing up front. When every tile
`enc_A_blks[x][k]` with `x < ⌈n1 / l⌉`, `k < ⌈rows(B) / d⌉` is present - rows longer than
`⌈rows(B) / d⌉` included - it returns all `⌈n1 / l⌉ * cols(B)` ciphertexts; when `x0` is the
first row tile with a missing tile and `B` has a column, it fails with `std::out_of_range`
after appending the `x0 * cols(B)` ciphertexts of the row tiles before `x0`. -/
theorem play_server_grid_mismatch {G Ctxt ZZX PX : Type} (P : Provider G Ctxt ZZX PX)
    (results : List Ctxt) (n1 : Nat) (B : Matrix) (enc : List (List Ctxt))
    (hl : 1 ≤ P.l) (hd : 1 ≤ P.d) (r1 : n1 + P.l ≤ 2 ^ 63) (r2 : B.NumRows + P.d ≤ 2 ^ 63)
    (r3 : B.NumCols + P.l ≤ 2 ^ 63) (hcover : PolysCover P (transpose B)) :
    ((∀ x k, x < ⌈(n1 : ℚ) / (P.l : ℚ)⌉₊ → k < ⌈(B.NumRows : ℚ) / (P.d : ℚ)⌉₊ →
        (tile_at enc x k).isSome) →
      ∃ out, play_server P results (n1 : Int) B enc = (results ++ out, none)
        ∧ out.length = ⌈(n1 : ℚ) / (P.l : ℚ)⌉₊ * B.NumCols)
    ∧ (∀ x0, x0 < ⌈(n1 : ℚ) / (P.l : ℚ)⌉₊ → 1 ≤ B.NumCols →
        (∀ x k, x < x0 → k < ⌈(B.NumRows : ℚ) / (P.d : ℚ)⌉₊ → (tile_at enc x k).isSome) →
        (∃ k, k < ⌈(B.NumRows : ℚ) / (P.d : ℚ)⌉₊ ∧ tile_at enc x0 k = none) →
        ∃ out, play_server P results (n1 : Int) B enc = (results ++ out, some Err.at_enc_A_blks)
          ∧ out.length = x0 * B.NumCols) := by
  constructor
  · intro hE
    refine ⟨_, play_server_run P results n1 B enc (cipher_of P enc) (diag_of P (transpose B))
      hl hd r1 r2 r3 (fun x k hx hk => tile_at_cipher_of P enc x k (hE x k hx hk))
      (fun c k hc _ => polys_diag_of P B hcover c k hc), ?_⟩
    simp
  · intro x0 hx0 hcols hE hmiss
    rw [play_server_unfold P results n1 B enc hl hd r1 r2 r3]
    have hrows := server_row_loop P enc
      (server_table P (transpose B) (⌈(B.NumCols : ℚ) / (P.l : ℚ)⌉₊ : Nat)
        (⌈(B.NumRows : ℚ) / (P.d : ℚ)⌉₊ : Nat))
      (⌈(B.NumRows : ℚ) / (P.d : ℚ)⌉₊ : Nat)
      (evaluator_cell P (cipher_of P enc) (diag_of P (transpose B))
        ⌈(B.NumRows : ℚ) / (P.d : ℚ)⌉₊) x0 B.NumCols results
      (fun x c hx hc => server_cell_of_table P B enc _ _ hl _ x c hc
        (fun k hk => tile_at_cipher_of P enc x k (hE x k hx hk))
        (fun k _ => polys_diag_of P B hcover c k hc))
    have hQ0 : ∀ k, k < ⌈(B.NumRows : ℚ) / (P.d : ℚ)⌉₊ → ∃ polys q,
        block_at (server_table P (transpose B) (⌈(B.NumCols : ℚ) / (P.l : ℚ)⌉₊ : Nat)
          (⌈(B.NumRows : ℚ) / (P.d : ℚ)⌉₊ : Nat)) 0 k = some polys ∧ polys[0]? = some q := by
      intro k hk
      have := server_polys_present P B hl hcover ⌈(B.NumRows : ℚ) / (P.d : ℚ)⌉₊ 0 k
        (by omega) hk
      simpa [Nat.zero_div, Nat.zero_mod] using this
    have hfail := server_row_missing P enc _ ⌈(B.NumRows : ℚ) / (P.d : ℚ)⌉₊ x0 B.NumCols
      (results ++ (List.range (x0 * B.NumCols)).map (fun i =>
        evaluator_cell P (cipher_of P enc) (diag_of P (transpose B))
          ⌈(B.NumRows : ℚ) / (P.d : ℚ)⌉₊ (i / B.NumCols) (i % B.NumCols)))
      hcols hQ0 hmiss
    have hnext := forLoop_succ_go x0 _ _ _ hrows
    rw [hfail] at hnext
    have hall := forLoop_left_stable (x0 + 1) (⌈(n1 : ℚ) / (P.l : ℚ)⌉₊ - (x0 + 1)) _ _ _ _
      hnext (by simp)
    rw [show x0 + 1 + (⌈(n1 : ℚ) / (P.l : ℚ)⌉₊ - (x0 + 1)) = ⌈(n1 : ℚ) / (P.l : ℚ)⌉₊ by omega]
      at hall
    rw [hall]
    exact ⟨_, rfl, by simp⟩

/-! ## `play_client` -/

theorem zero_dims (mat : Matrix) :
    (zero mat).NumRows = mat.NumRows ∧ (zero mat).NumCols = mat.NumCols :=
  forRange_invariant (fun _ (m : Matrix) => m.NumRows = mat.NumRows ∧ m.NumCols = mat.NumCols)
    mat.NumRows _ mat ⟨rfl, rfl⟩
    (fun _ t _ ht =>
      forRange_invariant (fun _ (m : Matrix) => m.NumRows = mat.NumRows ∧ m.NumCols = mat.NumCols)
        mat.NumCols _ t ht (fun _ _ _ hu => hu))

theorem randomize_dims {G : Type} (R : RandomStream G) (mat : Matrix) (p : Int) (g : G) :
    (randomize R mat p g).1.NumRows = mat.NumRows
      ∧ (randomize R mat p g).1.NumCols = mat.NumCols :=
  forRange_invariant
    (fun _ (s : Matrix × G) => s.1.NumRows = mat.NumRows ∧ s.1.NumCols = mat.NumCols)
    mat.NumRows _ (mat, g) ⟨rfl, rfl⟩
    (fun _ t _ ht =>
      forRange_invariant
        (fun _ (s : Matrix × G) => s.1.NumRows = mat.NumRows ∧ s.1.NumCols = mat.NumCols)
        mat.NumCols _ t ht (fun _ _ _ hu => hu))

theorem client_matrices_dims {G : Type} (R : RandomStream G) (p : Int) (g : G) (n1 n2 n3 : Nat) :
    (client_matrices R p g n1 n2 n3).1.NumRows = n1
      ∧ (client_matrices R p g n1 n2 n3).1.NumCols = n2
      ∧ (client_matrices R p g n1 n2 n3).2.1.NumRows = n2
      ∧ (client_matrices R p g n1 n2 n3).2.1.NumCols = n3 := by
  unfold client_matrices
  exact ⟨(randomize_dims R _ p _).1, (randomize_dims R _ p _).2, (randomize_dims R _ p _).1,
    (randomize_dims R _ p _).2⟩

theorem grid_set_shape {Ctxt : Type} (grid : List (List Ctxt)) (X Y x k : Nat) (ct : Ctxt)
    (h : grid.length = X ∧ ∀ row, row ∈ grid → row.length = Y) :
    (grid_set grid x k ct).length = X ∧ ∀ row, row ∈ grid_set grid x k ct → row.length = Y := by
  unfold grid_set
  refine ⟨by rw [List.length_modify]; exact h.1, ?_⟩
  intro row hrow
  obtain ⟨i, hi⟩ := List.mem_iff_getElem?.mp hrow
  rw [List.getElem?_modify] at hi
  cases hg : grid[i]? with
  | none => simp [hg] at hi
  | some a =>
    have ha : a.length = Y := h.2 a (List.mem_iff_getElem?.mpr ⟨i, hg⟩)
    simp only [hg, Option.map_eq_map, Option.map_some', Option.some.injEq] at hi
    by_cases hxi : x = i
    · rw [if_pos hxi] at hi
      rw [← hi, List.length_set]; exact ha
    · rw [if_neg hxi] at hi
      rw [← hi]; exact ha

/-- The encryption loops fill a grid of `X` rows of `Y` ciphertexts, with one call of `Encrypt`
for every block `(x, k)`, row tile by row tile. -/
theorem client_upload_spec {G Ctxt ZZX PX : Type} (P : Provider G Ctxt ZZX PX) (A : Matrix)
    (g : G) (X Y : Nat) :
    (client_upload P A g (X : Int) (Y : Int)).uploading.length = X
      ∧ (∀ row, row ∈ (client_upload P A g (X : Int) (Y : Int)).uploading → row.length = Y)
      ∧ (client_upload P A g (X : Int) (Y : Int)).encrypted
          = (List.range (X * Y)).map (fun i => (i / Y, i % Y)) := by
  unfold client_upload
  simp only [Int.toNat_ofNat]
  have key := forRange_invariant
    (fun x (s : Upload G Ctxt) => (s.uploading.length = X
      ∧ ∀ row, row ∈ s.uploading → row.length = Y)
      ∧ s.encrypted = (List.range (x * Y)).map (fun i => (i / Y, i % Y))) X
    (fun x s => forRange Y
      (fun k s =>
        ⟨grid_set s.uploading x k (P.Encrypt s.gen (P.rawEncode (P.packed_polys A (x, k) false))).1,
          (P.Encrypt s.gen (P.rawEncode (P.packed_polys A (x, k) false))).2,
          s.encrypted ++ [(x, k)]⟩) s)
    ⟨List.replicate X (List.replicate Y P.empty), g, []⟩
    (by
      refine ⟨⟨by simp, ?_⟩, by simp⟩
      intro row hrow
      rw [List.eq_of_mem_replicate hrow]; simp)
    (by
      intro x t _ ht
      have inner := forRange_invariant
        (fun k (s : Upload G Ctxt) => (s.uploading.length = X
          ∧ ∀ row, row ∈ s.uploading → row.length = Y)
          ∧ s.encrypted = (List.range (x * Y)).map (fun i => (i / Y, i % Y))
              ++ (List.range k).map (fun k => (x, k))) Y
        (fun k s =>
          ⟨grid_set s.uploading x k
            (P.Encrypt s.gen (P.rawEncode (P.packed_polys A (x, k) false))).1,
            (P.Encrypt s.gen (P.rawEncode (P.packed_polys A (x, k) false))).2,
            s.encrypted ++ [(x, k)]⟩) t
        (by simpa using ht)
        (by
          intro k u _ hu
          refine ⟨grid_set_shape _ X Y x k _ hu.1, ?_⟩
          simp only [hu.2, List.range_succ, List.map_append, List.map_cons, List.map_nil,
            List.append_assoc])
      refine ⟨inner.1, ?_⟩
      rw [inner.2, range_mul_succ_map (fun x k => (x, k)) x Y])
  exact ⟨key.1.1, key.1.2, key.2⟩

theorem pair_index_inj (Y x k x' k' : Nat) (hk : k < Y) (hk' : k' < Y)
    (h : x' * Y + k' = x * Y + k) : x' = x ∧ k' = k := by
  have hY : 0 < Y := by omega
  have e1 : (x' * Y + k') / Y = x' := by
    rw [Nat.mul_comm, Nat.mul_add_div hY, Nat.div_eq_of_lt hk']; simp
  have e2 : (x * Y + k) / Y = x := by
    rw [Nat.mul_comm, Nat.mul_add_div hY, Nat.div_eq_of_lt hk]; simp
  have hx : x' = x := by rw [← e1, ← e2, h]
  subst hx
  exact ⟨rfl, by omega⟩

theorem tile_at_grid_set {Ctxt : Type} (grid : List (List Ctxt)) (X Y x k x' k' : Nat)
    (ct : Ctxt) (hlen : grid.length = X) (hrow : ∀ row, row ∈ grid → row.length = Y)
    (hx : x < X) (hk : k < Y) :
    tile_at (grid_set grid x k ct) x' k'
      = if x' = x ∧ k' = k then some ct else tile_at grid x' k' := by
  unfold tile_at grid_set
  rw [List.getElem?_modify]
  by_cases hxx : x = x'
  · subst hxx
    have hx' : x < grid.length := by omega
    have hmem : grid[x] ∈ grid := List.getElem_mem _
    have hrl : (grid[x]).length = Y := hrow _ hmem
    simp only [List.getElem?_eq_getElem hx', Option.map_eq_map, Option.map_some', ↓reduceIte,
      true_and]
    rw [List.getElem?_set]
    by_cases hkk : k = k'
    · subst hkk
      simp [hrl, hk]
    · rw [if_neg hkk, if_neg (fun h => hkk h.symm)]
  · have hne : ¬ (x' = x ∧ k' = k) := fun h => hxx h.1.symm
    rw [if_neg hne]
    cases grid[x']? with
    | none => rfl
    | some row => simp [hxx]

/-- The encryption loops call `Encrypt` once for every block, row tile by row tile, each call
in the generator state the call before left, and store what it returns at the block's place in
the grid. -/
theorem client_upload_tiles {G Ctxt ZZX PX : Type} (P : Provider G Ctxt ZZX PX) (A : Matrix)
    (g : G) (X Y : Nat) :
    (client_upload P A g (X : Int) (Y : Int)).gen = upload_gen P A g Y (X * Y)
      ∧ ∀ x k, x < X → k < Y →
          tile_at (client_upload P A g (X : Int) (Y : Int)).uploading x k
            = some (upload_tile P A g Y x k) := by
  unfold client_upload
  simp only [Int.toNat_ofNat]
  have key := forRange_invariant
    (fun x (s : Upload G Ctxt) => (s.uploading.length = X
      ∧ ∀ row, row ∈ s.uploading → row.length = Y)
      ∧ s.gen = upload_gen P A g Y (x * Y)
      ∧ ∀ x' k', k' < Y → x' * Y + k' < x * Y →
          tile_at s.uploading x' k' = some (upload_tile P A g Y x' k')) X
    (fun x s => forRange Y
      (fun k s =>
        ⟨grid_set s.uploading x k (P.Encrypt s.gen (P.rawEncode (P.packed_polys A (x, k) false))).1,
          (P.Encrypt s.gen (P.rawEncode (P.packed_polys A (x, k) false))).2,
          s.encrypted ++ [(x, k)]⟩) s)
    ⟨List.replicate X (List.replicate Y P.empty), g, []⟩
    (by
      refine ⟨⟨by simp, ?_⟩, by simp [upload_gen], ?_⟩
      · intro row hrow
        rw [List.eq_of_mem_replicate hrow]; simp
      · intro x' k' _ h
        omega)
    (by
      intro x t hx ht
      have inner := forRange_invariant
        (fun k (s : Upload G Ctxt) => (s.uploading.length = X
          ∧ ∀ row, row ∈ s.uploading → row.length = Y)
          ∧ s.gen = upload_gen P A g Y (x * Y + k)
          ∧ ∀ x' k', k' < Y → x' * Y + k' < x * Y + k →
              tile_at s.uploading x' k' = some (upload_tile P A g Y x' k')) Y
        (fun k s =>
          ⟨grid_set s.uploading x k
            (P.Encrypt s.gen (P.rawEncode (P.packed_polys A (x, k) false))).1,
            (P.Encrypt s.gen (P.rawEncode (P.packed_polys A (x, k) false))).2,
            s.encrypted ++ [(x, k)]⟩) t
        (by simpa using ht)
        (by
          intro k u hk hu
          obtain ⟨hshape, hgen, htiles⟩ := hu
          have hY : 0 < Y := by omega
          have e1 : (x * Y + k) / Y = x := by
            rw [Nat.mul_comm, Nat.mul_add_div hY, Nat.div_eq_of_lt hk]; simp
          have e2 : (x * Y + k) % Y = k := by
            rw [Nat.mul_comm, Nat.mul_add_mod, Nat.mod_eq_of_lt hk]
          refine ⟨grid_set_shape _ X Y x k _ hshape, ?_, ?_⟩
          · show (P.Encrypt u.gen (P.rawEncode (P.packed_polys A (x, k) false))).2
              = upload_gen P A g Y (x * Y + k + 1)
            rw [hgen]
            simp only [upload_gen, e1, e2]
          · intro x' k' hk' hlt
            show tile_at (grid_set u.uploading x k
                (P.Encrypt u.gen (P.rawEncode (P.packed_polys A (x, k) false))).1) x' k' = _
            rw [tile_at_grid_set _ X Y x k x' k' _ hshape.1 hshape.2 hx hk]
            by_cases hpair : x' = x ∧ k' = k
            · obtain ⟨rfl, rfl⟩ := hpair
              rw [if_pos ⟨rfl, rfl⟩, hgen]
              rfl
            · rw [if_neg hpair]
              apply htiles x' k' hk'
              by_contra hge
              exact hpair (pair_index_inj Y x k x' k' hk hk' (by omega)))
      refine ⟨inner.1, ?_, ?_⟩
      · rw [inner.2.1]; congr 1; ring
      · intro x' k' hk' hlt
        exact inner.2.2 x' k' hk' (by
          have : (x + 1) * Y = x * Y + Y := by ring
          omega))
  refine ⟨key.2.1, ?_⟩
  intro x k hx hk
  apply key.2.2 x k hk
  have h1 : (x + 1) * Y ≤ X * Y := Nat.mul_le_mul_right Y hx
  have h2 : (x + 1) * Y = x * Y + Y := by ring
  omega

/-- The decoding loop after `n` ciphertexts, for a result matrix that is not a single row:
every cell whose ciphertext has been seen holds its inner product. -/
theorem client_decode_loop {G Ctxt ZZX PX : Type} (P : Provider G Ctxt ZZX PX) (n1 n3 : Nat)
    (ret : List Ctxt) (ip : Nat → Nat → Int) (hl : 1 ≤ P.l) (hn1 : n1 ≠ 1) (X : Nat)
    (hlen : ret.length = X * n3)
    (hslots : ∀ x c, x < X → c < n3 → ∃ ct, ret[x * n3 + c]? = some ct
      ∧ (P.extract_inner_products (P.faster_decrypt ct)).length = P.l
      ∧ ∀ lane, lane < P.l → x * P.l + lane < n1 →
          (P.extract_inner_products (P.faster_decrypt ct)).getD lane 0 = ip (x * P.l + lane) c)
    (n : Nat) (hn : n ≤ ret.length) :
    ∃ m, forEach (ret.take n) (decode_step P n3) (zero (Matrix.SetDims n1 n3), 0)
        = ((m, n), Ctl.go)
      ∧ m.NumRows = n1 ∧ m.NumCols = n3
      ∧ ∀ r c, r < n1 → c < n3 → (r / P.l) * n3 + c < n → m.entry r c = ip r c := by
  induction n with
  | zero =>
    refine ⟨zero (Matrix.SetDims n1 n3), rfl, (zero_dims _).1, (zero_dims _).2, ?_⟩
    intro r c _ _ h
    omega
  | succ n ih =>
    obtain ⟨m, hrun, hR, hC, hcells⟩ := ih (by omega)
    have hn3 : 0 < n3 := by
      rcases Nat.eq_zero_or_pos n3 with h | h
      · rw [h, Nat.mul_zero] at hlen; omega
      · exact h
    have hx : n / n3 < X := by
      rw [Nat.div_lt_iff_lt_mul hn3]; omega
    have hc : n % n3 < n3 := Nat.mod_lt _ hn3
    have hidx : n / n3 * n3 + n % n3 = n := by
      rw [Nat.mul_comm]; exact Nat.div_add_mod n n3
    obtain ⟨ct, hct, hslen, hsval⟩ := hslots (n / n3) (n % n3) hx hc
    rw [hidx] at hct
    have htake : ret.take (n + 1) = ret.take n ++ [ct] := by
      rw [List.take_succ, hct]; rfl
    obtain ⟨m', hfill, hR', hC', hE'⟩ := fill_compute_multi_row m (n / n3) (n % n3)
      (P.extract_inner_products (P.faster_decrypt ct)) P.l hslen (by omega) (by omega)
    refine ⟨m', ?_, by omega, by omega, ?_⟩
    · rw [htake, forEach_concat, hrun]
      simp [decode_step, hfill]
    · intro r c hr hcc hlt
      rw [hE' r c]
      by_cases hcond : c = n % n3 ∧ n / n3 * P.l ≤ r ∧ r < n / n3 * P.l + P.l ∧ r < m.NumRows
      · rw [if_pos hcond]
        obtain ⟨h1, h2, h3, _⟩ := hcond
        have := hsval (r - n / n3 * P.l) (by omega) (by omega)
        rw [this, h1]
        congr 1
        omega
      · rw [if_neg hcond]
        apply hcells r c hr hcc
        by_contra hge
        have heq : r / P.l * n3 + c = n := by omega
        have e1 : r / P.l = n / n3 := by
          have : (r / P.l * n3 + c) / n3 = r / P.l := by
            rw [Nat.mul_comm, Nat.mul_add_div hn3, Nat.div_eq_of_lt hcc]; simp
          rw [← this, heq]
        have e2 : c = n % n3 := by
          have : (r / P.l * n3 + c) % n3 = c := by
            rw [Nat.mul_comm, Nat.mul_add_mod, Nat.mod_eq_of_lt hcc]
          rw [← this, heq]
        apply hcond
        have hdm := Nat.div_add_mod r P.l
        have hml := Nat.mod_lt r (show 0 < P.l by omega)
        rw [← e1]
        have hcomm : P.l * (r / P.l) = r / P.l * P.l := Nat.mul_comm _ _
        exact ⟨e2, by omega, by omega, by omega⟩

/-- For a result of more than one row, the decoding loop of `play_client` rebuilds the matrix
whose cell `(r, c)` is the inner product carried in lane `r mod l` of the ciphertext at position
`(r / l) * n3 + c`. -/
theorem client_decode_multi_row {G Ctxt ZZX PX : Type} (P : Provider G Ctxt ZZX PX)
    (n1 n3 : Nat) (ret : List Ctxt) (ip : Nat → Nat → Int) (hl : 1 ≤ P.l) (hn1 : n1 ≠ 1)
    (hlen : ret.length = ⌈(n1 : ℚ) / (P.l : ℚ)⌉₊ * n3)
    (hslots : ∀ x c, x < ⌈(n1 : ℚ) / (P.l : ℚ)⌉₊ → c < n3 → ∃ ct, ret[x * n3 + c]? = some ct
      ∧ (P.extract_inner_products (P.faster_decrypt ct)).length = P.l
      ∧ ∀ lane, lane < P.l → x * P.l + lane < n1 →
          (P.extract_inner_products (P.faster_decrypt ct)).getD lane 0
            = ip (x * P.l + lane) c) :
    ∃ m, client_decode P n1 n3 ret = .ok m ∧ m.NumRows = n1 ∧ m.NumCols = n3
      ∧ ∀ r c, r < n1 → c < n3 → m.entry r c = ip r c := by
  have hX := (ceil_tiles_bounds n1 P.l hl).2
  obtain ⟨m, hrun, hR, hC, hcells⟩ :=
    client_decode_loop P n1 n3 ret ip hl hn1 _ hlen hslots ret.length (le_refl _)
  rw [List.take_length] at hrun
  refine ⟨m, ?_, hR, hC, ?_⟩
  · unfold client_decode
    simp only [hrun]
  · intro r c hr hc
    apply hcells r c hr hc
    rw [hlen]
    have : r / P.l + 1 ≤ ⌈(n1 : ℚ) / (P.l : ℚ)⌉₊ := hX r hr
    have h2 := Nat.mul_le_mul_right n3 this
    have e : (r / P.l + 1) * n3 = r / P.l * n3 + n3 := by ring
    omega

/-- The run of `play_client` with the tile counts as natural numbers. -/
theorem play_client_server {G Ctxt ZZX PX : Type} (R : RandomStream G)
    (P : Provider G Ctxt ZZX PX) (g : G) (n1 n2 n3 : Nat) (hl : 1 ≤ P.l) (hd : 1 ≤ P.d)
    (r1 : n1 + P.l ≤ 2 ^ 63) (r2 : n2 + P.d ≤ 2 ^ 63) :
    (play_client R P g n1 n2 n3).ctx_sent
        = wrapInt (wrapLong
            ((⌈(n1 : ℚ) / (P.l : ℚ)⌉₊ * ⌈(n2 : ℚ) / (P.d : ℚ)⌉₊ : Nat) : Int))
    ∧ (play_client R P g n1 n2 n3).uploading
        = (client_upload P (client_matrices R P.p g n1 n2 n3).1
            (client_matrices R P.p g n1 n2 n3).2.2
            (⌈(n1 : ℚ) / (P.l : ℚ)⌉₊ : Nat) (⌈(n2 : ℚ) / (P.d : ℚ)⌉₊ : Nat)).uploading
    ∧ (play_client R P g n1 n2 n3).encrypted
        = (client_upload P (client_matrices R P.p g n1 n2 n3).1
            (client_matrices R P.p g n1 n2 n3).2.2
            (⌈(n1 : ℚ) / (P.l : ℚ)⌉₊ : Nat) (⌈(n2 : ℚ) / (P.d : ℚ)⌉₊ : Nat)).encrypted
    ∧ ((play_client R P g n1 n2 n3).ret_ctxs, (play_client R P g n1 n2 n3).thrown)
        = play_server P [] (n1 : Int) (play_client R P g n1 n2 n3).B
            (play_client R P g n1 n2 n3).uploading
    ∧ (play_client R P g n1 n2 n3).ctx_rev
        = wrapInt (play_client R P g n1 n2 n3).ret_ctxs.length
    ∧ (play_client R P g n1 n2 n3).B.NumRows = n2
    ∧ (play_client R P g n1 n2 n3).B.NumCols = n3 := by
  obtain ⟨hAr, hAc, hBr, hBc⟩ := client_matrices_dims R P.p g n1 n2 n3
  refine ⟨?_, ?_, ?_, rfl, rfl, hBr, hBc⟩
  · show wrapInt (wrapLong (round_div (client_matrices R P.p g n1 n2 n3).1.NumRows P.l
        * round_div (client_matrices R P.p g n1 n2 n3).1.NumCols P.d)) = _
    rw [hAr, hAc, round_div_natCast n1 P.l hl r1, round_div_natCast n2 P.d hd r2]
    push_cast; rfl
  · show (client_upload P (client_matrices R P.p g n1 n2 n3).1
        (client_matrices R P.p g n1 n2 n3).2.2
        (round_div (client_matrices R P.p g n1 n2 n3).1.NumRows P.l)
        (round_div (client_matrices R P.p g n1 n2 n3).1.NumCols P.d)).uploading = _
    rw [hAr, hAc, round_div_natCast n1 P.l hl r1, round_div_natCast n2 P.d hd r2]
  · show (client_upload P (client_matrices R P.p g n1 n2 n3).1
        (client_matrices R P.p g n1 n2 n3).2.2
        (round_div (client_matrices R P.p g n1 n2 n3).1.NumRows P.l)
        (round_div (client_matrices R P.p g n1 n2 n3).1.NumCols P.d)).encrypted = _
    rw [hAr, hAc, round_div_natCast n1 P.l hl r1, round_div_natCast n2 P.d hd r2]

/-! ## Claims about the round trip -/

/-- C1: `play_client` encrypts exactly `⌈n1 / l⌉ * ⌈n2 / d⌉` ciphertexts, one for every block
`(x, k)` with `x < ⌈n1 / l⌉` and `k < ⌈n2 / d⌉`: the grid `uploading` has `⌈n1 / l⌉` rows of
`⌈n2 / d⌉` ciphertexts, its entry `(x, k)` is what `Encrypt` returns for the packed encoding
of block `(x, k)` of `A` in the generator state left by the `x * ⌈n2 / d⌉ + k` calls before it,
and after the loops the generator is in the state reached by exactly `⌈n1 / l⌉ * ⌈n2 / d⌉`
calls; this number is stored in `ctx_sent`. `play_server` then does not throw and appends
exactly `⌈n1 / l⌉ * n3` ciphertexts, stored in `ctx_rev`, the one of row tile `x` and output
column `c`, computed from the encrypted tiles of row `x`, at position `x * n3 + c`. -/
theorem ciphertext_cardinality {G Ctxt ZZX PX : Type} (R : RandomStream G)
    (P : Provider G Ctxt ZZX PX) (g : G) (n1 n2 n3 : Nat) (hl : 1 ≤ P.l) (hd : 1 ≤ P.d)
    (r1 : n1 + P.l ≤ 2 ^ 63) (r2 : n2 + P.d ≤ 2 ^ 63) (r3 : n3 + P.l ≤ 2 ^ 63)
    (hcover : PolysCover P (transpose (client_matrices R P.p g n1 n2 n3).2.1)) :
    (⌈(n1 : ℚ) / (P.l : ℚ)⌉₊ * ⌈(n2 : ℚ) / (P.d : ℚ)⌉₊ < 2 ^ 31 →
      (play_client R P g n1 n2 n3).ctx_sent
        = ((⌈(n1 : ℚ) / (P.l : ℚ)⌉₊ * ⌈(n2 : ℚ) / (P.d : ℚ)⌉₊ : Nat) : Int))
    ∧ ((play_client R P g n1 n2 n3).uploading.length = ⌈(n1 : ℚ) / (P.l : ℚ)⌉₊
      ∧ (∀ row, row ∈ (play_client R P g n1 n2 n3).uploading →
          row.length = ⌈(n2 : ℚ) / (P.d : ℚ)⌉₊)
      ∧ ((play_client R P g n1 n2 n3).uploading.map List.length).sum
          = ⌈(n1 : ℚ) / (P.l : ℚ)⌉₊ * ⌈(n2 : ℚ) / (P.d : ℚ)⌉₊)
    ∧ (∀ x k, x < ⌈(n1 : ℚ) / (P.l : ℚ)⌉₊ → k < ⌈(n2 : ℚ) / (P.d : ℚ)⌉₊ →
        tile_at (play_client R P g n1 n2 n3).uploading x k
          = some (P.Encrypt
              (upload_gen P (play_client R P g n1 n2 n3).A
                (client_matrices R P.p g n1 n2 n3).2.2 ⌈(n2 : ℚ) / (P.d : ℚ)⌉₊
                (x * ⌈(n2 : ℚ) / (P.d : ℚ)⌉₊ + k))
              (P.rawEncode (P.packed_polys (play_client R P g n1 n2 n3).A (x, k) false))).1)
    ∧ (client_upload P (play_client R P g n1 n2 n3).A (client_matrices R P.p g n1 n2 n3).2.2
          (round_div n1 P.l) (round_div n2 P.d)).gen
        = upload_gen P (play_client R P g n1 n2 n3).A (client_matrices R P.p g n1 n2 n3).2.2
            ⌈(n2 : ℚ) / (P.d : ℚ)⌉₊ (⌈(n1 : ℚ) / (P.l : ℚ)⌉₊ * ⌈(n2 : ℚ) / (P.d : ℚ)⌉₊)
    ∧ (play_client R P g n1 n2 n3).encrypted
        = (List.range (⌈(n1 : ℚ) / (P.l : ℚ)⌉₊ * ⌈(n2 : ℚ) / (P.d : ℚ)⌉₊)).map
            (fun i => (i / ⌈(n2 : ℚ) / (P.d : ℚ)⌉₊, i % ⌈(n2 : ℚ) / (P.d : ℚ)⌉₊))
    ∧ (play_client R P g n1 n2 n3).encrypted.length
        = ⌈(n1 : ℚ) / (P.l : ℚ)⌉₊ * ⌈(n2 : ℚ) / (P.d : ℚ)⌉₊
    ∧ (play_client R P g n1 n2 n3).thrown = none
    ∧ (play_client R P g n1 n2 n3).ret_ctxs.length = ⌈(n1 : ℚ) / (P.l : ℚ)⌉₊ * n3
    ∧ (⌈(n1 : ℚ) / (P.l : ℚ)⌉₊ * n3 < 2 ^ 31 →
      (play_client R P g n1 n2 n3).ctx_rev = ((⌈(n1 : ℚ) / (P.l : ℚ)⌉₊ * n3 : Nat) : Int))
    ∧ ∀ x c, x < ⌈(n1 : ℚ) / (P.l : ℚ)⌉₊ → c < n3 →
        (play_client R P g n1 n2 n3).ret_ctxs[x * n3 + c]?
          = some (evaluator_cell P
              (upload_tile P (play_client R P g n1 n2 n3).A
                (client_matrices R P.p g n1 n2 n3).2.2 ⌈(n2 : ℚ) / (P.d : ℚ)⌉₊)
              (diag_of P (transpose (play_client R P g n1 n2 n3).B))
              ⌈(n2 : ℚ) / (P.d : ℚ)⌉₊ x c)
        ∧ server_cell P (play_client R P g n1 n2 n3).uploading
            (server_table P (transpose (play_client R P g n1 n2 n3).B)
              (round_div n3 P.l) (round_div n2 P.d))
            (round_div n2 P.d) x c
          = .ok (evaluator_cell P
              (upload_tile P (play_client R P g n1 n2 n3).A
                (client_matrices R P.p g n1 n2 n3).2.2 ⌈(n2 : ℚ) / (P.d : ℚ)⌉₊)
              (diag_of P (transpose (play_client R P g n1 n2 n3).B))
              ⌈(n2 : ℚ) / (P.d : ℚ)⌉₊ x c) := by
  obtain ⟨hsent, hupl, hlog, hsrv, hrev, hBr, hBc⟩ := play_client_server R P g n1 n2 n3 hl hd r1 r2
  obtain ⟨hlen, hrow, henc⟩ := client_upload_spec P (client_matrices R P.p g n1 n2 n3).1
    (client_matrices R P.p g n1 n2 n3).2.2 ⌈(n1 : ℚ) / (P.l : ℚ)⌉₊ ⌈(n2 : ℚ) / (P.d : ℚ)⌉₊
  obtain ⟨hgen, htiles⟩ := client_upload_tiles P (client_matrices R P.p g n1 n2 n3).1
    (client_matrices R P.p g n1 n2 n3).2.2 ⌈(n1 : ℚ) / (P.l : ℚ)⌉₊ ⌈(n2 : ℚ) / (P.d : ℚ)⌉₊
  rw [← hupl] at hlen hrow htiles
  rw [← hlog] at henc
  have hE : ∀ x k, x < ⌈(n1 : ℚ) / (P.l : ℚ)⌉₊ →
      k < ⌈(((play_client R P g n1 n2 n3).B.NumRows : Nat) : ℚ) / (P.d : ℚ)⌉₊ →
      tile_at (play_client R P g n1 n2 n3).uploading x k
        = some (upload_tile P (play_client R P g n1 n2 n3).A
            (client_matrices R P.p g n1 n2 n3).2.2 ⌈(n2 : ℚ) / (P.d : ℚ)⌉₊ x k) := by
    intro x k hx hk
    rw [hBr] at hk
    exact htiles x k hx hk
  have hrun := play_server_run P [] n1 (play_client R P g n1 n2 n3).B
    (play_client R P g n1 n2 n3).uploading
    (upload_tile P (play_client R P g n1 n2 n3).A
      (client_matrices R P.p g n1 n2 n3).2.2 ⌈(n2 : ℚ) / (P.d : ℚ)⌉₊)
    (diag_of P (transpose (play_client R P g n1 n2 n3).B)) hl hd r1 (by omega) (by omega) hE
    (fun c k hc _ => polys_diag_of P (play_client R P g n1 n2 n3).B hcover c k hc)
  rw [← hsrv, hBr, hBc] at hrun
  have hret := (Prod.mk.inj hrun).1
  have hthrown := (Prod.mk.inj hrun).2
  have hretlen : (play_client R P g n1 n2 n3).ret_ctxs.length
      = ⌈(n1 : ℚ) / (P.l : ℚ)⌉₊ * n3 := by rw [hret]; simp
  have hsum : ((play_client R P g n1 n2 n3).uploading.map List.length).sum
      = ⌈(n1 : ℚ) / (P.l : ℚ)⌉₊ * ⌈(n2 : ℚ) / (P.d : ℚ)⌉₊ := by
    have hconst : (play_client R P g n1 n2 n3).uploading.map List.length
        = List.replicate (play_client R P g n1 n2 n3).uploading.length
            ⌈(n2 : ℚ) / (P.d : ℚ)⌉₊ := by
      apply List.eq_replicate_iff.mpr
      refine ⟨by simp, ?_⟩
      intro m hm
      obtain ⟨row, hrowmem, rfl⟩ := List.mem_map.mp hm
      exact hrow row hrowmem
    rw [hconst, List.sum_replicate, hlen, smul_eq_mul]
  refine ⟨?_, ⟨hlen, hrow, hsum⟩, htiles, ?_, henc, by rw [henc]; simp, hthrown, hretlen, ?_, ?_⟩
  · intro hsmall
    rw [hsent]
    exact wrapInt_wrapLong_natCast _ hsmall
  · rw [round_div_natCast n1 P.l hl r1, round_div_natCast n2 P.d hd r2]
    exact hgen
  · intro hsmall
    rw [hrev, hretlen]
    exact wrapInt_natCast _ hsmall
  intro x c hx hc
  refine ⟨by rw [hret, List.nil_append]; exact getElem?_range_pairs _ _ _ x c hx hc, ?_⟩
  have hcell := server_cell_of_table P (play_client R P g n1 n2 n3).B
    (play_client R P g n1 n2 n3).uploading
    (upload_tile P (play_client R P g n1 n2 n3).A
      (client_matrices R P.p g n1 n2 n3).2.2 ⌈(n2 : ℚ) / (P.d : ℚ)⌉₊)
    (diag_of P (transpose (play_client R P g n1 n2 n3).B)) hl ⌈(n2 : ℚ) / (P.d : ℚ)⌉₊ x c
    (by omega)
    (fun k hk => htiles x k hx hk)
    (fun k _ => polys_diag_of P (play_client R P g n1 n2 n3).B hcover c k (by omega))
  rw [hBc] at hcell
  rw [round_div_natCast n3 P.l hl r3, round_div_natCast n2 P.d hd r2]
  exact hcell

/-- C3 fails on the code, at `n1 = 1`, `n2 = 4`, `n3 = 2` with `l = 4`, `d = 2`, `p = 7`. In the
run of `play_client` over the plaintext provider the server does not throw and the two returned
ciphertexts decrypt, in lane 0, to the two entries of the reference product modulo `p`, as the
claim assumes; yet the decoding loop does not rebuild the `1 × 2` product: the call of
`fill_compute` for the second ciphertext writes outside `computed`. The loop alone behaves
the same on two ciphertexts that carry the products 3 and 4. -/
theorem client_decode_single_row_diverges :
    (play_client mockStream (mockProvider 4 2 7) 0 1 4 2).thrown = none
    ∧ (play_client mockStream (mockProvider 4 2 7) 0 1 4 2).ret_ctxs.map
        (fun ct => ((mockProvider 4 2 7).extract_inner_products
          ((mockProvider 4 2 7).faster_decrypt ct)).headD 0)
      = [(play_client mockStream (mockProvider 4 2 7) 0 1 4 2).ground_truth.entry 0 0 % 7,
          (play_client mockStream (mockProvider 4 2 7) 0 1 4 2).ground_truth.entry 0 1 % 7]
    ∧ (play_client mockStream (mockProvider 4 2 7) 0 1 4 2).computed
        = .error Err.index_mat
    ∧ client_decode (mockProvider 4 2 7) 1 2 [[[3], [0], [0], [0]], [[4], [0], [0], [0]]]
        = .error Err.index_mat :=
  ⟨rfl, by decide, rfl, rfl⟩

/-- C4 fails on the code for a matrix of a single row: with `mat` of shape `1 × 2`, `col = 1`,
`l = 4` and the slot vector `[5, 0, 0, 0]`, `fill_compute` does not store 5 in cell `(0, 1)` but
writes to `(1, 0)`, outside the matrix; with a matrix of two rows the same call fills
column 1 with the first two lanes and leaves column 0 as it was. -/
theorem fill_compute_single_row_diverges :
    fill_compute ⟨1, 2, fun _ _ => 0⟩ 0 1 [5, 0, 0, 0] 4 = .error Err.index_mat
    ∧ (fill_compute ⟨2, 2, fun _ _ => 0⟩ 0 1 [5, 6, 0, 0] 4).toOption.map
        (fun m => (m.entry 0 1, m.entry 1 1, m.entry 0 0, m.entry 1 0)) = some (5, 6, 0, 0) :=
  ⟨rfl, rfl⟩

/-- C5 fails on the code: for every result matrix of a single row, every column `col ≥ 1` and
every slot vector of length `l ≥ 1`, the first write of `fill_compute` for row tile 0 is
`mat.put(col, 0, _)`, whose row index `col` is not below the number of rows. -/
theorem fill_compute_single_row_out_of_range (mat : Matrix) (col : Nat) (inner_prod : List Int)
    (l : Nat) (hrows : mat.NumRows = 1) (hcol : 1 ≤ col) (hlen : inner_prod.length = l)
    (hl : 1 ≤ l) :
    fill_compute mat 0 col inner_prod l = .error Err.index_mat ∧ mat.NumRows ≤ col
      ∧ ∀ v, mat.put col 0 v = .error Err.index_mat := by
  refine ⟨?_, by omega, ?_⟩
  · unfold fill_compute
    simp only [hlen, ne_eq, not_true_eq_false, ↓reduceIte, hrows, decide_True]
    rw [fill_compute_single_row_loop mat col inner_prod l hrows hcol hlen hl]
  · intro v
    simp only [Matrix.put]
    rw [if_neg]
    omega

theorem fill_compute_single_row_out_of_range_witness :
    fill_compute ⟨1, 3, fun _ _ => 0⟩ 0 2 [4, 9] 2 = .error Err.index_mat
      ∧ (⟨1, 3, fun _ _ => 0⟩ : Matrix).NumRows ≤ 2
      ∧ ∀ v, (⟨1, 3, fun _ _ => 0⟩ : Matrix).put 2 0 v = .error Err.index_mat :=
  fill_compute_single_row_out_of_range ⟨1, 3, fun _ _ => 0⟩ 2 [4, 9] 2 rfl (by decide) rfl
    (by decide)

/-- C6: for `a ≥ 0` and `b ≥ 1` with `a + b - 1` representable as a signed 64-bit `long`,
`round_div(a, b)` is `⌈a / b⌉`, the least `k` with `k * b ≥ a`; so a tile count
`count = round_div(extent, size)`, as computed for `MAX_X1`, `MAX_Y1`, `MAX_X2` and `MAX_Y2`,
satisfies `(count - 1) * size < extent ≤ count * size` for `extent ≥ 1`. -/
theorem round_div_ceil (a b : Int) (ha : 0 ≤ a) (hb : 1 ≤ b) (hrep : a + b - 1 < 2 ^ 63) :
    round_div a b = ⌈(a : ℚ) / (b : ℚ)⌉
    ∧ (a ≤ round_div a b * b ∧ ∀ k : Int, a ≤ k * b → round_div a b ≤ k)
    ∧ (1 ≤ a → (round_div a b - 1) * b < a ∧ a ≤ round_div a b * b) := by
  obtain ⟨h1, h2⟩ := round_div_bounds a b ha hb hrep
  refine ⟨round_div_eq_ceil a b ha hb hrep, ⟨h1, ?_⟩, fun _ => ⟨h2, h1⟩⟩
  intro k hk
  by_contra hlt
  push_neg at hlt
  have hle : k ≤ round_div a b - 1 := by linarith
  have := mul_le_mul_of_nonneg_right hle (by linarith : (0 : Int) ≤ b)
  linarith

theorem round_div_ceil_witness :
    round_div 5 4 = ⌈((5 : Int) : ℚ) / ((4 : Int) : ℚ)⌉
    ∧ ((5 : Int) ≤ round_div 5 4 * 4 ∧ ∀ k : Int, 5 ≤ k * 4 → round_div 5 4 ≤ k)
    ∧ ((1 : Int) ≤ 5 → (round_div 5 4 - 1) * 4 < 5 ∧ (5 : Int) ≤ round_div 5 4 * 4) :=
  round_div_ceil 5 4 (by decide) (by decide) (by decide)

/-- C7 fails on the code, over the plaintext provider with `l = d = 1` and a `1 × 1` matrix
`B`, so that `⌈rows(B) / d⌉ = 1`: a grid whose only row has two tiles is accepted and a result
list returned; and with `n1 = 2` and an empty second row the call fails only after the
ciphertext of row tile 0 has been appended. -/
theorem play_server_mismatch_counterexample :
    round_div 1 1 = 1
    ∧ ([[[3]], [[5]]] : List (List (List Int))).length ≠ 1
    ∧ play_server (mockProvider 1 1 7) [] 1 ⟨1, 1, fun _ _ => 2⟩ [[[[3]], [[5]]]]
        = ([[[6]]], none)
    ∧ ([] : List (List (List Int))).length ≠ 1
    ∧ play_server (mockProvider 1 1 7) [] 2 ⟨1, 1, fun _ _ => 2⟩ [[[[3]]], []]
        = ([[[6]]], some Err.at_enc_A_blks) := by
  decide

/-- C8: with the generator as explicit state, the matrices `A` and `B` drawn by `play_client`
do not depend on the state the generator was in before the call, as it is seeded with 123
before `randomize(A)` and `randomize(B)`; so neither do the reference product, the grid sent,
the ciphertexts returned and the matrix rebuilt over a provider that is a function of its
arguments. -/
theorem play_client_deterministic {G Ctxt ZZX PX : Type} (R : RandomStream G)
    (P : Provider G Ctxt ZZX PX) (g g' : G) (n1 n2 n3 : Nat) :
    (client_matrices R P.p g n1 n2 n3).1
        = (randomize R (Matrix.SetDims n1 n2) P.p (R.SetSeed 123)).1
    ∧ client_matrices R P.p g n1 n2 n3 = client_matrices R P.p g' n1 n2 n3
    ∧ (play_client R P g n1 n2 n3).A = (play_client R P g' n1 n2 n3).A
    ∧ (play_client R P g n1 n2 n3).B = (play_client R P g' n1 n2 n3).B
    ∧ (play_client R P g n1 n2 n3).ground_truth = (play_client R P g' n1 n2 n3).ground_truth
    ∧ (play_client R P g n1 n2 n3).computed = (play_client R P g' n1 n2 n3).computed
    ∧ play_client R P g n1 n2 n3 = play_client R P g' n1 n2 n3 :=
  ⟨rfl, rfl, rfl, rfl, rfl, rfl, rfl⟩

/-! ## `trim` -/

theorem find_first_none (s : List Char) (c : Char) :
    find_first_not_of s c = none ↔ ∀ x ∈ s, x = c := by
  induction s with
  | nil => simp [find_first_not_of]
  | cons x xs ih =>
    by_cases h : x = c
    · simp [find_first_not_of, h, ih]
    · simp [find_first_not_of, h]

theorem find_last_none (s : List Char) (c : Char) :
    find_last_not_of s c = none ↔ ∀ x ∈ s, x = c := by
  induction s with
  | nil => simp [find_last_not_of]
  | cons x xs ih =>
    cases hx : find_last_not_of xs c with
    | none =>
      have := ih.mp hx
      by_cases h : x = c
      · simp only [find_last_not_of, hx, h, ne_eq, not_true_eq_false, ↓reduceIte, List.mem_cons,
          forall_eq_or_imp, true_and]
        simpa using this
      · simp [find_last_not_of, hx, h]
    | some i =>
      have : ¬ ∀ y ∈ xs, y = c := fun hh => by simp [ih.mpr hh] at hx
      simp only [find_last_not_of, hx]
      simp only [List.mem_cons, forall_eq_or_imp]
      constructor
      · intro h; cases h
      · intro h; exact absurd h.2 this

theorem find_first_some (s : List Char) (c : Char) (i : Nat)
    (h : find_first_not_of s c = some i) :
    i < s.length ∧ s.take i = List.replicate i c ∧ (s.drop i).head? ≠ some c
      ∧ (s.drop i).head? ≠ none := by
  induction s generalizing i with
  | nil => simp [find_first_not_of] at h
  | cons x xs ih =>
    by_cases hx : x = c
    · simp only [find_first_not_of, hx, ne_eq, not_true_eq_false, ↓reduceIte,
        Option.map_eq_some'] at h
      obtain ⟨j, hj, rfl⟩ := h
      obtain ⟨h1, h2, h3, h4⟩ := ih j hj
      refine ⟨by simpa using h1, ?_, by simpa using h3, by simpa using h4⟩
      simp [List.replicate_succ, h2, hx]
    · simp only [find_first_not_of, ne_eq, hx, not_false_eq_true, ↓reduceIte,
        Option.some.injEq] at h
      subst h
      simp [hx]

theorem find_last_some (s : List Char) (c : Char) (j : Nat)
    (h : find_last_not_of s c = some j) :
    j < s.length ∧ s.drop (j + 1) = List.replicate (s.length - (j + 1)) c
      ∧ (s.take (j + 1)).getLast? ≠ some c ∧ (s.take (j + 1)).getLast? ≠ none := by
  induction s generalizing j with
  | nil => simp [find_last_not_of] at h
  | cons x xs ih =>
    cases hx : find_last_not_of xs c with
    | some i =>
      simp only [find_last_not_of, hx, Option.some.injEq] at h
      subst h
      obtain ⟨h1, h2, h3, h4⟩ := ih i hx
      refine ⟨by simpa using h1, by simpa using h2, ?_, ?_⟩
      · rw [List.take_succ_cons]
        cases hl : xs.take (i + 1) with
        | nil => simp [hl] at h4
        | cons y ys => rw [hl] at h3; simpa [List.getLast?_cons_cons] using h3
      · rw [List.take_succ_cons]; simp [List.getLast?_eq_none_iff]
    | none =>
      simp only [find_last_not_of, hx] at h
      by_cases hxc : x = c
      · simp [hxc] at h
      · simp only [ne_eq, hxc, not_false_eq_true, ↓reduceIte, Option.some.injEq] at h
        subst h
        have hall := (find_last_none xs c).mp hx
        refine ⟨by simp, ?_, by simpa using hxc, by simp⟩
        simp only [zero_add, List.drop_succ_cons, List.drop_zero, List.length_cons,
          add_tsub_cancel_right]
        exact List.eq_replicate_iff.mpr ⟨rfl, hall⟩

theorem trim_of_blank (line : List Char) (h : ∀ x ∈ line, x = ' ') : trim line = some line := by
  simp [trim, (find_first_none line ' ').mpr h]

theorem trim_decompose (line : List Char) (h : ∃ x ∈ line, x ≠ ' ') :
    ∃ t i j, trim line = some t ∧ line = List.replicate i ' ' ++ t ++ List.replicate j ' '
      ∧ t ≠ [] ∧ t.head? ≠ some ' ' ∧ t.getLast? ≠ some ' ' := by
  cases hf : find_first_not_of line ' ' with
  | none => exact absurd ((find_first_none line ' ').mp hf) (by push_neg; exact h)
  | some first =>
    cases hl : find_last_not_of line ' ' with
    | none => exact absurd ((find_last_none line ' ').mp hl) (by push_neg; exact h)
    | some last =>
      obtain ⟨f1, f2, f3, f4⟩ := find_first_some line ' ' first hf
      obtain ⟨l1, l2, l3, l4⟩ := find_last_some line ' ' last hl
      have hle : first ≤ last := by
        by_contra hlt
        push_neg at hlt
        have : (line.take (last + 1)).getLast? = some ' ' := by
          have hsub : line.take (last + 1) = List.replicate (last + 1) ' ' := by
            have : line.take (last + 1) = (line.take first).take (last + 1) := by
              rw [List.take_take]; congr 1; omega
            rw [this, f2, List.take_replicate]; congr 1; omega
          rw [hsub]; simp [List.getLast?_replicate]
        exact l3 this
      refine ⟨(line.drop first).take (last - first + 1), first, line.length - (last + 1), ?_, ?_, ?_, ?_, ?_⟩
      · simp [trim, hf, hl, substr, le_of_lt f1]
      · have e1 : line = line.take first ++ line.drop first := (List.take_append_drop _ _).symm
        have e2 : line.drop first = (line.drop first).take (last - first + 1)
            ++ (line.drop first).drop (last - first + 1) := (List.take_append_drop _ _).symm
        have e3 : (line.drop first).drop (last - first + 1) = line.drop (last + 1) := by
          rw [List.drop_drop]; congr 1; omega
        rw [e3, l2] at e2
        rw [f2] at e1
        rw [List.append_assoc, ← e2]
        exact e1
      · intro hnil
        have := congrArg List.length hnil
        simp at this
        omega
      · cases hd : line.drop first with
        | nil => simp [hd] at f4
        | cons y ys => rw [hd] at f3; simpa using f3
      · have e : (line.drop first).take (last - first + 1) = (line.take (last + 1)).drop first := by
          rw [List.drop_take]; congr 1; omega
        rw [e]
        have hlen : first < (line.take (last + 1)).length := by
          simp; omega
        rw [List.getLast?_drop]
        simp only [List.length_take]
        rw [if_neg (by omega)]
        exact l3

theorem find_last_of_getLast (s : List Char) (c : Char) (hne : s ≠ [])
    (h : s.getLast? ≠ some c) : find_last_not_of s c = some (s.length - 1) := by
  induction s with
  | nil => exact absurd rfl hne
  | cons x xs ih =>
    cases xs with
    | nil =>
      have hx : x ≠ c := by simpa using h
      simp [find_last_not_of, hx]
    | cons y ys =>
      have h2 : (y :: ys).getLast? ≠ some c := by
        rw [List.getLast?_cons_cons] at h; exact h
      have := ih (by simp) h2
      simp only [find_last_not_of] at this ⊢
      rw [this]
      simp

theorem trim_fixed (t : List Char) (hne : t ≠ []) (hh : t.head? ≠ some ' ')
    (hl : t.getLast? ≠ some ' ') : trim t = some t := by
  cases t with
  | nil => exact absurd rfl hne
  | cons y ys =>
    have hy : y ≠ ' ' := by simpa using hh
    have hf : find_first_not_of (y :: ys) ' ' = some 0 := by simp [find_first_not_of, hy]
    have hlast := find_last_of_getLast (y :: ys) ' ' hne hl
    simp [trim, hf, hlast, substr]

theorem trim_idem (line : List Char) : (trim line).bind trim = trim line := by
  by_cases h : ∃ x ∈ line, x ≠ ' '
  · obtain ⟨t, i, j, ht, _, hne, hh, hl⟩ := trim_decompose line h
    rw [ht, Option.some_bind]
    exact trim_fixed t hne hh hl
  · push_neg at h
    rw [trim_of_blank line h, Option.some_bind, trim_of_blank line h]

/-- C10: if `line` has a character other than a blank, `trim(line)` is the part of `line` from
its first to its last such character: `line` is blanks, then `trim(line)`, then blanks, and
`trim(line)` is not empty and neither starts nor ends with a blank; if `line` is empty or all
blanks, `trim(line)` is `line`; and in both cases `trim(trim(line)) = trim(line)`. -/
theorem trim_spec (line : List Char) :
    ((∃ x ∈ line, x ≠ ' ') →
      ∃ t i j, trim line = some t ∧ line = List.replicate i ' ' ++ t ++ List.replicate j ' '
        ∧ t ≠ [] ∧ t.head? ≠ some ' ' ∧ t.getLast? ≠ some ' ')
    ∧ ((∀ x ∈ line, x = ' ') → trim line = some line)
    ∧ (trim line).bind trim = trim line :=
  ⟨trim_decompose line, trim_of_blank line, trim_idem line⟩

theorem trim_spec_witness :
    (∃ t i j, trim "  a b ".toList = some t
        ∧ "  a b ".toList = List.replicate i ' ' ++ t ++ List.replicate j ' '
        ∧ t ≠ [] ∧ t.head? ≠ some ' ' ∧ t.getLast? ≠ some ' ')
    ∧ trim "  ".toList = some "  ".toList :=
  ⟨(trim_spec "  a b ".toList).1 (by decide), (trim_spec "  ".toList).2.1 (by decide)⟩

/-! ## Instances of the claims on the plaintext provider -/

theorem ciphertext_cardinality_witness :
    (play_client mockStream (mockProvider 4 2 7) 0 4 4 4).ctx_sent = 2
    ∧ ((play_client mockStream (mockProvider 4 2 7) 0 4 4 4).uploading.map List.length).sum = 2
    ∧ tile_at (play_client mockStream (mockProvider 4 2 7) 0 4 4 4).uploading 0 1
        = some ((mockProvider 4 2 7).Encrypt
            (upload_gen (mockProvider 4 2 7)
              (play_client mockStream (mockProvider 4 2 7) 0 4 4 4).A
              (client_matrices mockStream (mockProvider 4 2 7).p 0 4 4 4).2.2 2 (0 * 2 + 1))
            ((mockProvider 4 2 7).rawEncode ((mockProvider 4 2 7).packed_polys
              (play_client mockStream (mockProvider 4 2 7) 0 4 4 4).A (0, 1) false))).1
    ∧ (play_client mockStream (mockProvider 4 2 7) 0 4 4 4).encrypted.length = 2
    ∧ (play_client mockStream (mockProvider 4 2 7) 0 4 4 4).thrown = none
    ∧ (play_client mockStream (mockProvider 4 2 7) 0 4 4 4).ctx_rev = 4 := by
  have h := ciphertext_cardinality mockStream (mockProvider 4 2 7) 0 4 4 4 (by decide)
    (by decide) (by decide) (by decide) (by decide) (mockProvider_cover 4 2 7 (by decide) _)
  have e1 : ⌈((4 : Nat) : ℚ) / (((mockProvider 4 2 7).l : Nat) : ℚ)⌉₊ = 1 := by
    simp [mockProvider]
  have e2 : ⌈((4 : Nat) : ℚ) / (((mockProvider 4 2 7).d : Nat) : ℚ)⌉₊ = 2 := by
    simp [mockProvider]; norm_num
  rw [e1, e2] at h
  obtain ⟨hsent, ⟨_, _, hsum⟩, htiles, _, _, hlog, hthrown, _, hrev, _⟩ := h
  exact ⟨hsent (by decide), hsum, htiles 0 1 (by decide) (by decide), hlog, hthrown,
    hrev (by decide)⟩

theorem play_server_emits_evaluator_cells_witness :
    ∃ out, play_server (mockProvider 2 2 7) [] 2 ⟨2, 2, fun r c => r + 2 * c⟩ [[[[1, 2], [3, 4]]]]
        = ([] ++ out, none)
      ∧ out[0 * 2 + 1]?
        = some (evaluator_cell (mockProvider 2 2 7) (fun _ _ => [[1, 2], [3, 4]])
            (diag_of (mockProvider 2 2 7) (transpose ⟨2, 2, fun r c => r + 2 * c⟩)) 1 0 1) := by
  have e1 : ⌈((2 : Nat) : ℚ) / (((mockProvider 2 2 7).l : Nat) : ℚ)⌉₊ = 1 := by
    simp [mockProvider]
  have e2 : ⌈(((⟨2, 2, fun r c => r + 2 * c⟩ : Matrix).NumRows : Nat) : ℚ)
      / (((mockProvider 2 2 7).d : Nat) : ℚ)⌉₊ = 1 := by
    simp [mockProvider]
  obtain ⟨out, h1, h2⟩ := play_server_emits_evaluator_cells (mockProvider 2 2 7) [] 2
    ⟨2, 2, fun r c => r + 2 * c⟩ [[[[1, 2], [3, 4]]]] (fun _ _ => [[1, 2], [3, 4]])
    (diag_of (mockProvider 2 2 7) (transpose ⟨2, 2, fun r c => r + 2 * c⟩))
    (by decide) (by decide) (by decide) (by decide) (by decide)
    (by
      intro x k hx hk
      rw [e1] at hx
      rw [e2] at hk
      obtain rfl : x = 0 := by omega
      obtain rfl : k = 0 := by omega
      rfl)
    (fun c k hc _ => polys_diag_of (mockProvider 2 2 7) _
      (mockProvider_cover 2 2 7 (by decide) _) c k hc)
  rw [e2] at h2
  exact ⟨out, h1, (h2 0 1 (by rw [e1]; decide) (by decide)).1⟩

theorem play_server_lookups_in_range_witness :
    (play_server (mockProvider 2 2 7) [] 2 ⟨2, 2, fun r c => r + 2 * c⟩
        [[[[1, 2], [3, 4]]]]).2 = none
      ∨ (play_server (mockProvider 2 2 7) [] 2 ⟨2, 2, fun r c => r + 2 * c⟩
        [[[[1, 2], [3, 4]]]]).2 = some Err.at_polys :=
  (play_server_lookups_in_range (mockProvider 2 2 7) [] 2 ⟨2, 2, fun r c => r + 2 * c⟩
    [[[[1, 2], [3, 4]]]] (by decide) (by decide) (by decide) (by decide) (by decide)
    (by simp [mockProvider])
    (by
      intro row hrow
      rw [List.mem_singleton.mp hrow]
      simp [mockProvider])).2.2

theorem play_server_grid_mismatch_witness :
    ∃ out, play_server (mockProvider 1 1 7) [] 2 ⟨1, 1, fun _ _ => 2⟩ [[[[3]]], []]
        = ([] ++ out, some Err.at_enc_A_blks)
      ∧ out.length = 1 * (⟨1, 1, fun _ _ => 2⟩ : Matrix).NumCols :=
  (play_server_grid_mismatch (mockProvider 1 1 7) [] 2 ⟨1, 1, fun _ _ => 2⟩ [[[[3]]], []]
    (by decide) (by decide) (by decide) (by decide) (by decide)
    (mockProvider_cover 1 1 7 (by decide) _)).2 1
    (by simp [mockProvider])
    (by decide)
    (by
      intro x k hx hk
      have hk' : k < 1 := by simpa [mockProvider] using hk
      obtain rfl : x = 0 := by omega
      obtain rfl : k = 0 := by omega
      rfl)
    ⟨0, by simp [mockProvider], rfl⟩

end SMP
